import Mathlib

/-!
Verification of the vehicle-HAL request-dispatch / subscription engine and the
software haptic-generator effect.

The haptic generator is embedded from
`audio/aidl/default/hapticGenerator/HapticGeneratorSw.cpp`.  The vehicle-HAL
engine (DefaultVehicleHal, PendingRequestPool, SubscriptionManager,
LargeParcelableBase) is not part of the source tree here (only its test file
`automotive/vehicle/aidl/impl/vhal/test/DefaultVehicleHalTest.cpp` is), so the
engine is modelled from the specification, component by component, and checked
against the behaviours the test file pins down.
-/

/-! ## Haptic generator (from source)

`HapticGeneratorSw::effectProcessImpl(float* in, float* out, int samples)`
copies `samples` samples from `in` to `out` and returns
`{STATUS_OK, samples, samples}`.  The input buffer is modelled as a total
function from index to sample; float samples are treated as opaque integers
since the loop only copies them.
-/

def STATUS_OK : Int := 0

/-- Return status of `IEffect` processing: `{status, fmqConsumed, fmqProduced}`. -/
structure IEffectStatus where
  status : Int
  fmqConsumed : Int
  fmqProduced : Int
deriving DecidableEq, Repr

/-- The copy loop `for (int i = 0; i < samples; i++) *out++ = *in++;` of
`HapticGeneratorSw::effectProcessImpl`, producing the output buffer. -/
def effectCopyLoop (inBuf : Nat → Int) : Nat → List Int
  | 0 => []
  | n + 1 => effectCopyLoop inBuf n ++ [inBuf n]

/-- `HapticGeneratorSw::effectProcessImpl`: copy `samples` input samples to the
output and report `{STATUS_OK, samples, samples}`. -/
def effectProcessImpl (inBuf : Nat → Int) (samples : Nat) : List Int × IEffectStatus :=
  (effectCopyLoop inBuf samples, ⟨STATUS_OK, samples, samples⟩)

theorem effectCopyLoop_eq_range_map (inBuf : Nat → Int) (n : Nat) :
    effectCopyLoop inBuf n = (List.range n).map inBuf := by
  induction n with
  | zero => rfl
  | succ n ih => simp [effectCopyLoop, ih, List.range_succ]

theorem effectCopyLoop_length (inBuf : Nat → Int) (n : Nat) :
    (effectCopyLoop inBuf n).length = n := by
  simp [effectCopyLoop_eq_range_map]

/-- C10: `effectProcessImpl` is an identity pass-through: each of the `n`
input samples is copied to the output unchanged, and the returned status
triple is `{STATUS_OK, n, n}`. -/
theorem effectProcessImpl_identity (inBuf : Nat → Int) (n : Nat) :
    (∀ i, i < n → (effectProcessImpl inBuf n).1[i]? = some (inBuf i)) ∧
    (effectProcessImpl inBuf n).1.length = n ∧
    (effectProcessImpl inBuf n).2 = ⟨STATUS_OK, n, n⟩ := by
  refine ⟨?_, ?_, rfl⟩
  · intro i hi
    simp [effectProcessImpl, effectCopyLoop_eq_range_map, List.getElem?_map,
      List.getElem?_range hi]
  · simpa [effectProcessImpl] using effectCopyLoop_length inBuf n

/-- Witness for C10 at a concrete buffer and sample count. -/
theorem effectProcessImpl_identity_witness :
    (effectProcessImpl (fun i => Int.ofNat i + 7) 3).1[1]? = some 8 ∧
    (effectProcessImpl (fun i => Int.ofNat i + 7) 3).2 = ⟨STATUS_OK, 3, 3⟩ :=
  ⟨(effectProcessImpl_identity (fun i => Int.ofNat i + 7) 3).1 1 (by decide),
   (effectProcessImpl_identity (fun i => Int.ofNat i + 7) 3).2.2⟩

/-! ## Vehicle HAL data model

Modelled from the spec: the engine implementation (DefaultVehicleHal,
PendingRequestPool, SubscriptionManager) is not in the source tree, only its
test file; the definitions below follow spec sections 3, 4.2, 4.3 and 4.5.
-/

/-- Wire-visible status codes (spec section 6). -/
inductive StatusCode
  | ok
  | invalidArg
  | tryAgain
  | internalError
  | notAvailable
deriving DecidableEq, Repr

/-- Per-area configuration: area id plus declared numeric range (spec section 3,
`PropertyConfig` area configs). -/
structure AreaConfig where
  areaId : Int
  minInt32Value : Int
  maxInt32Value : Int
deriving DecidableEq, Repr

/-- Change mode of a property (spec section 3). -/
inductive ChangeMode
  | staticMode
  | onChange
  | continuous
deriving DecidableEq, Repr

/-- Modelled from the spec: `PropertyConfig` of the missing PropertyConfigStore
(spec sections 3 and 4.1): property id, change mode, optional area configs and
a sample-rate band for continuous properties. -/
structure PropConfig where
  prop : Int
  changeMode : ChangeMode
  areaConfigs : List AreaConfig
  minSampleRate : Rat
  maxSampleRate : Rat
deriving DecidableEq, Repr

/-- `PropertyConfigStore.lookup(propId)` (spec section 4.1). -/
def lookupConfig (cfgs : List PropConfig) (propId : Int) : Option PropConfig :=
  cfgs.find? (fun c => c.prop == propId)

/-- The configured area set of a property; a property with no explicit area
configs is global and exposes only the global area id 0 (spec sections 3 and
9, glossary "Area"). -/
def configuredAreaIds (c : PropConfig) : List Int :=
  if c.areaConfigs.isEmpty then [0] else c.areaConfigs.map (·.areaId)

/-- `VehiclePropValue`: (property id, area id, typed value).  Only the int32
vector variant is modelled; the other variants play no role in the claims. -/
structure VehiclePropValue where
  prop : Int
  areaId : Int
  int32Values : List Int
deriving DecidableEq, Repr

/-- All values lie inside the range declared by an area config. -/
def checkValueRange (ac : AreaConfig) (vals : List Int) : Bool :=
  vals.all (fun x => decide (ac.minInt32Value ≤ x) && decide (x ≤ ac.maxInt32Value))

/-- Modelled from the spec: per-item validation of the missing
RequestDispatcher (spec section 4.5 stage 3): the property must exist, the
area id must be configured for the property, and for a set request the value
must be present and inside the per-area numeric range. -/
def validateRequest (isSet : Bool) (cfgs : List PropConfig) (v : VehiclePropValue) : StatusCode :=
  match lookupConfig cfgs v.prop with
  | none => .invalidArg
  | some c =>
    if (configuredAreaIds c).contains v.areaId then
      if isSet then
        if v.int32Values.isEmpty then .invalidArg
        else
          match c.areaConfigs.find? (fun ac => ac.areaId == v.areaId) with
          | some ac => if checkValueRange ac v.int32Values then .ok else .invalidArg
          | none => .ok
      else .ok
    else .invalidArg

/-- A per-request result delivered on the callback channel: request id, status
and, for get requests, the returned value (spec section 6). -/
structure VhalResult where
  requestId : Int
  status : StatusCode
  prop : Option VehiclePropValue
deriving DecidableEq, Repr

/-! ## Pending request pool

Modelled from the spec: the missing PendingRequestPool (spec section 4.2).
The pool state is the set of in-flight `(clientId, requestId)` pairs; replies
and deadline firings are events that extract entries atomically and emit
callback invocations.  Each emitted invocation is tagged with the client whose
callback receives it.
-/

/-- Pool state: the in-flight `(clientId, requestId)` entries. -/
structure EngineState where
  pending : List (Nat × Int)
deriving DecidableEq, Repr

/-- `PendingRequestPool.tryAdd`: atomically insert all ids for a client; if
any id is already in flight for that client, insert none and fail (spec
section 4.2). -/
def tryAdd (s : EngineState) (c : Nat) (ids : List Int) : Option EngineState :=
  if ids.any (fun id => s.pending.contains (c, id)) then none
  else some ⟨s.pending ++ ids.map (fun id => (c, id))⟩

/-- Remove every entry of client `c` whose request id is listed in `ids`. -/
def removeIds (s : EngineState) (c : Nat) (ids : List Int) : EngineState :=
  ⟨s.pending.filter (fun p => !(p.1 == c && ids.contains p.2))⟩

/-- Remove the entry `(c, id)` from the pool. -/
def removeOne (s : EngineState) (c : Nat) (id : Int) : EngineState :=
  ⟨s.pending.filter (fun p => !(p.1 == c && p.2 == id))⟩

/-- `PendingRequestPool.resolve` applied to a batch of hardware results: each
result whose id is still pending is extracted and delivered; results whose id
has already been extracted (e.g. by the timeout path) are dropped (spec
sections 4.2 and 4.5 stage 6). -/
def resolveBatch (s : EngineState) (c : Nat) : List VhalResult → EngineState × List VhalResult
  | [] => (s, [])
  | r :: rest =>
    if s.pending.contains (c, r.requestId) then
      let out := resolveBatch (removeOne s c r.requestId) c rest
      (out.1, r :: out.2)
    else resolveBatch s c rest

/-- The synthetic result delivered by the timeout path: status `TRY_AGAIN`,
no value (spec section 4.2). -/
def timeoutResult (id : Int) : VhalResult :=
  ⟨id, .tryAgain, none⟩

/-- Keep the first occurrence of every id (the pool tracks a batch of ids as a
set). -/
def dedupInt : List Int → List Int
  | [] => []
  | x :: xs => if (dedupInt xs).contains x then dedupInt xs else x :: dedupInt xs

/-- Asynchronous pool events: a hardware reply for a client, or the deadline
of one of the client's batches firing (spec sections 4.2 and 5). -/
inductive PoolEv
  | reply (c : Nat) (results : List VhalResult)
  | timeoutFire (c : Nat) (ids : List Int)

/-- Emit one callback invocation to client `c` carrying batch `d`, or nothing
when the batch is empty (no callback fires for an empty result set). -/
def emit (c : Nat) (d : List VhalResult) : List (Nat × List VhalResult) :=
  if d.isEmpty then [] else [(c, d)]

/-- Process one pool event, returning the new state and the callback
invocations (client, result batch) it emits.  A reply delivers the results
still pending as one batch; a deadline firing removes every still-unresolved
id of the batch and delivers synthetic `TRY_AGAIN` results as one batch. -/
def stepEv (s : EngineState) : PoolEv → EngineState × List (Nat × List VhalResult)
  | .reply c results =>
    ((resolveBatch s c results).1, emit c (resolveBatch s c results).2)
  | .timeoutFire c ids =>
    (removeIds s c (dedupInt ids),
     emit c (((dedupInt ids).filter (fun id => s.pending.contains (c, id))).map timeoutResult))

/-- Process a sequence of pool events, collecting all callback invocations. -/
def runEvents (s : EngineState) : List PoolEv → EngineState × List (Nat × List VhalResult)
  | [] => (s, [])
  | e :: es =>
    ((runEvents (stepEv s e).1 es).1,
     (stepEv s e).2 ++ (runEvents (stepEv s e).1 es).2)

/-- The results delivered to client `c` for request id `id` across a list of
callback invocations, in delivery order. -/
def resultsFor (c : Nat) (id : Int) : List (Nat × List VhalResult) → List VhalResult
  | [] => []
  | inv :: rest =>
    (if inv.1 = c then inv.2.filter (fun r => r.requestId == id) else []) ++ resultsFor c id rest

/-- An event is terminal for `(c, id)`: a hardware reply carrying that id for
that client, or that client's deadline firing over a batch containing the id. -/
def resolvesId (c : Nat) (id : Int) : PoolEv → Prop
  | .reply c' results => c' = c ∧ id ∈ results.map (·.requestId)
  | .timeoutFire c' ids => c' = c ∧ id ∈ ids

/-- An event is a hardware reply carrying `(c, id)`. -/
def replyFor (c : Nat) (id : Int) : PoolEv → Prop
  | .reply c' results => c' = c ∧ id ∈ results.map (·.requestId)
  | .timeoutFire _ _ => False

/-! ### Pool lemmas: each pending entry yields exactly one terminal result -/

/-- 1 when `(c, id)` is in flight, else 0. -/
def indPending (s : EngineState) (c : Nat) (id : Int) : Nat :=
  if (c, id) ∈ s.pending then 1 else 0

theorem mem_removeOne (s : EngineState) (c : Nat) (id : Int) (p : Nat × Int) :
    p ∈ (removeOne s c id).pending ↔ p ∈ s.pending ∧ ¬(p.1 = c ∧ p.2 = id) := by
  simp only [removeOne, List.mem_filter]
  constructor
  · rintro ⟨hp, hb⟩
    refine ⟨hp, fun hc => ?_⟩
    rw [hc.1, hc.2] at hb
    simp at hb
  · rintro ⟨hp, hc⟩
    refine ⟨hp, ?_⟩
    by_cases h1 : p.1 = c
    · by_cases h2 : p.2 = id
      · exact absurd ⟨h1, h2⟩ hc
      · simp [h2]
    · simp [h1]

theorem indPending_removeOne_self (s : EngineState) (c : Nat) (id : Int) :
    indPending (removeOne s c id) c id = 0 := by
  simp [indPending, mem_removeOne]

theorem indPending_removeOne_other (s : EngineState) (c : Nat) (rid id : Int)
    (h : rid ≠ id) : indPending (removeOne s c rid) c id = indPending s c id := by
  simp only [indPending, mem_removeOne]
  have hne : ¬id = rid := fun hh => h hh.symm
  simp [hne]

theorem resolveBatch_cons_pos (s : EngineState) (c : Nat) (r : VhalResult)
    (rest : List VhalResult) (h : (c, r.requestId) ∈ s.pending) :
    resolveBatch s c (r :: rest) =
      ((resolveBatch (removeOne s c r.requestId) c rest).1,
       r :: (resolveBatch (removeOne s c r.requestId) c rest).2) := by
  have hc : s.pending.contains (c, r.requestId) = true := by simpa using h
  simp [resolveBatch, hc]
  exact fun hcon => absurd h hcon

theorem resolveBatch_cons_neg (s : EngineState) (c : Nat) (r : VhalResult)
    (rest : List VhalResult) (h : (c, r.requestId) ∉ s.pending) :
    resolveBatch s c (r :: rest) = resolveBatch s c rest := by
  have hc : s.pending.contains (c, r.requestId) = false := by
    simpa using h
  simp [resolveBatch, hc]
  exact fun hcon => absurd hcon h

theorem resolveBatch_count (c : Nat) (id : Int) :
    ∀ (rs : List VhalResult) (s : EngineState),
      ((resolveBatch s c rs).2.filter (fun r => r.requestId == id)).length
        + indPending (resolveBatch s c rs).1 c id = indPending s c id := by
  intro rs
  induction rs with
  | nil => intro s; simp [resolveBatch]
  | cons r rest ih =>
    intro s
    by_cases hmem : (c, r.requestId) ∈ s.pending
    · rw [resolveBatch_cons_pos s c r rest hmem]
      by_cases hid : r.requestId = id
      · subst hid
        have h1 : indPending s c r.requestId = 1 := by
          simp [indPending, hmem]
        have h0 : indPending (removeOne s c r.requestId) c r.requestId = 0 :=
          indPending_removeOne_self s c r.requestId
        have hrec := ih (removeOne s c r.requestId)
        rw [h0] at hrec
        have hz := Nat.add_eq_zero.mp hrec
        simp [hz.1, hz.2, h1]
      · have hpres := indPending_removeOne_other s c r.requestId id hid
        have hrec := ih (removeOne s c r.requestId)
        rw [hpres] at hrec
        simpa [hid] using hrec
    · rw [resolveBatch_cons_neg s c r rest hmem]
      exact ih s

theorem resolveBatch_pending_subset (c : Nat) :
    ∀ (rs : List VhalResult) (s : EngineState) (p : Nat × Int),
      p ∈ (resolveBatch s c rs).1.pending → p ∈ s.pending := by
  intro rs
  induction rs with
  | nil => intro s p h; simpa [resolveBatch] using h
  | cons r rest ih =>
    intro s p h
    by_cases hmem : (c, r.requestId) ∈ s.pending
    · rw [resolveBatch_cons_pos s c r rest hmem] at h
      exact ((mem_removeOne s c r.requestId p).mp (ih _ p h)).1
    · rw [resolveBatch_cons_neg s c r rest hmem] at h
      exact ih s p h

theorem resolveBatch_not_mem_of_resolved (c : Nat) (id : Int) :
    ∀ (rs : List VhalResult) (s : EngineState),
      id ∈ rs.map (·.requestId) → (c, id) ∉ (resolveBatch s c rs).1.pending := by
  intro rs
  induction rs with
  | nil => intro s h; simp at h
  | cons r rest ih =>
    intro s h
    rcases List.mem_map.mp h with ⟨r', hr', hrid⟩
    rcases List.mem_cons.mp hr' with heq | htail
    · subst heq
      by_cases hmem : (c, r'.requestId) ∈ s.pending
      · rw [resolveBatch_cons_pos s c r' rest hmem]
        intro hcon
        have := (mem_removeOne s c r'.requestId (c, id)).mp
          (resolveBatch_pending_subset c rest _ _ hcon)
        exact this.2 ⟨rfl, hrid.symm⟩
      · rw [resolveBatch_cons_neg s c r' rest hmem]
        rw [← hrid]
        intro hcon
        exact hmem (resolveBatch_pending_subset c rest s _ hcon)
    · by_cases hmem : (c, r.requestId) ∈ s.pending
      · rw [resolveBatch_cons_pos s c r rest hmem]
        exact ih _ (hrid ▸ List.mem_map_of_mem (·.requestId) htail)
      · rw [resolveBatch_cons_neg s c r rest hmem]
        exact ih _ (hrid ▸ List.mem_map_of_mem (·.requestId) htail)

theorem resolveBatch_pending_other (c : Nat) :
    ∀ (rs : List VhalResult) (s : EngineState) (p : Nat × Int), p.1 ≠ c →
      (p ∈ (resolveBatch s c rs).1.pending ↔ p ∈ s.pending) := by
  intro rs
  induction rs with
  | nil => intro s p _; simp [resolveBatch]
  | cons r rest ih =>
    intro s p hp
    by_cases hmem : (c, r.requestId) ∈ s.pending
    · rw [resolveBatch_cons_pos s c r rest hmem]
      rw [ih _ p hp, mem_removeOne]
      constructor
      · exact fun h => h.1
      · intro h
        refine ⟨h, ?_⟩
        rintro ⟨h1, -⟩
        exact hp h1
    · rw [resolveBatch_cons_neg s c r rest hmem]
      exact ih s p hp

theorem resolveBatch_results_subset (c : Nat) :
    ∀ (rs : List VhalResult) (s : EngineState) (r : VhalResult),
      r ∈ (resolveBatch s c rs).2 → r ∈ rs := by
  intro rs
  induction rs with
  | nil => intro s r h; simp [resolveBatch] at h
  | cons r0 rest ih =>
    intro s r h
    by_cases hmem : (c, r0.requestId) ∈ s.pending
    · rw [resolveBatch_cons_pos s c r0 rest hmem] at h
      rcases List.mem_cons.mp h with heq | htail
      · exact heq ▸ List.mem_cons_self r0 rest
      · exact List.mem_cons_of_mem r0 (ih _ r htail)
    · rw [resolveBatch_cons_neg s c r0 rest hmem] at h
      exact List.mem_cons_of_mem r0 (ih s r h)

theorem mem_dedupInt : ∀ (l : List Int) (x : Int), x ∈ dedupInt l ↔ x ∈ l := by
  intro l
  induction l with
  | nil => intro x; simp [dedupInt]
  | cons y ys ih =>
    intro x
    by_cases hy : (dedupInt ys).contains y
    · have hyy : y ∈ ys := (ih y).mp (by simpa using hy)
      simp only [dedupInt, hy, if_true, List.mem_cons, ih x]
      constructor
      · exact Or.inr
      · rintro (rfl | hx)
        · exact hyy
        · exact hx
    · have hyn : y ∉ dedupInt ys := by simpa using hy
      have heq : dedupInt (y :: ys) = y :: dedupInt ys := by
        simp [dedupInt, hyn]
      rw [heq]
      simp [List.mem_cons, ih x]

theorem nodup_dedupInt : ∀ l : List Int, (dedupInt l).Nodup := by
  intro l
  induction l with
  | nil => simp [dedupInt]
  | cons y ys ih =>
    by_cases hy : (dedupInt ys).contains y
    · have hym : y ∈ dedupInt ys := by simpa using hy
      have heq : dedupInt (y :: ys) = dedupInt ys := by
        simp [dedupInt, hym]
      rw [heq]
      exact ih
    · have hyn : y ∉ dedupInt ys := by simpa using hy
      have heq : dedupInt (y :: ys) = y :: dedupInt ys := by
        simp [dedupInt, hyn]
      rw [heq]
      exact List.nodup_cons.mpr ⟨hyn, ih⟩

theorem mem_removeIds (s : EngineState) (c : Nat) (ids : List Int) (p : Nat × Int) :
    p ∈ (removeIds s c ids).pending ↔ p ∈ s.pending ∧ ¬(p.1 = c ∧ p.2 ∈ ids) := by
  simp only [removeIds, List.mem_filter]
  constructor
  · rintro ⟨hp, hb⟩
    refine ⟨hp, fun hc => ?_⟩
    rw [hc.1] at hb
    simp at hb
    exact hb hc.2
  · rintro ⟨hp, hc⟩
    refine ⟨hp, ?_⟩
    by_cases h1 : p.1 = c
    · by_cases h2 : p.2 ∈ ids
      · exact absurd ⟨h1, h2⟩ hc
      · simp [h2]
    · simp [h1]

theorem indPending_removeIds (s : EngineState) (c : Nat) (ids : List Int) (id : Int) :
    indPending (removeIds s c ids) c id =
      if id ∈ ids then 0 else indPending s c id := by
  by_cases h : id ∈ ids
  · simp [indPending, mem_removeIds, h]
  · simp [indPending, mem_removeIds, h]

theorem resultsFor_append (c : Nat) (id : Int) :
    ∀ a b : List (Nat × List VhalResult),
      resultsFor c id (a ++ b) = resultsFor c id a ++ resultsFor c id b := by
  intro a b
  induction a with
  | nil => simp [resultsFor]
  | cons inv rest ih => simp [resultsFor, ih]

theorem filter_map_timeoutResult (id : Int) :
    ∀ still : List Int,
      ((still.map timeoutResult).filter (fun r => r.requestId == id)).length =
        still.count id := by
  intro still
  induction still with
  | nil => simp
  | cons x xs ih =>
    by_cases h : x = id
    · simp [timeoutResult, h, ih, List.count_cons]
    · have h2 : ¬(id = x) := fun hh => h hh.symm
      simp [timeoutResult, h, h2, ih, List.count_cons]

theorem mem_still_filter (s : EngineState) (c : Nat) (uids : List Int) (id : Int) :
    id ∈ uids.filter (fun i => s.pending.contains (c, i)) ↔
      id ∈ uids ∧ (c, id) ∈ s.pending := by
  simp [List.mem_filter]

theorem resultsFor_emit (c : Nat) (id : Int) (d : List VhalResult) :
    resultsFor c id (emit c d) = d.filter (fun r => r.requestId == id) := by
  by_cases hd : d.isEmpty
  · have hnil : d = [] := by simpa using hd
    simp [emit, hnil, resultsFor]
  · simp [emit, hd, resultsFor]

theorem resultsFor_emit_other (c c' : Nat) (id : Int) (d : List VhalResult)
    (h : c' ≠ c) : resultsFor c id (emit c' d) = [] := by
  by_cases hd : d.isEmpty
  · simp [emit, hd, resultsFor]
  · simp [emit, hd, resultsFor, h]

theorem stepEv_count (s : EngineState) (e : PoolEv) (c : Nat) (id : Int) :
    (resultsFor c id (stepEv s e).2).length + indPending (stepEv s e).1 c id =
      indPending s c id := by
  cases e with
  | reply c' results =>
    by_cases hcc : c' = c
    · subst hcc
      simp only [stepEv]
      rw [resultsFor_emit]
      exact resolveBatch_count c' id results s
    · simp only [stepEv]
      rw [resultsFor_emit_other c c' id _ hcc]
      have hpres := resolveBatch_pending_other c' results s (c, id)
        (fun hh => hcc hh.symm)
      simp [indPending, hpres]
  | timeoutFire c' ids =>
    by_cases hcc : c' = c
    · subst hcc
      simp only [stepEv]
      rw [resultsFor_emit, filter_map_timeoutResult, indPending_removeIds]
      have hnodupStill : ((dedupInt ids).filter (fun i => s.pending.contains (c', i))).Nodup :=
        (nodup_dedupInt ids).filter _
      by_cases huid : id ∈ dedupInt ids
      · rw [if_pos huid]
        by_cases hpend : (c', id) ∈ s.pending
        · rw [List.count_eq_one_of_mem hnodupStill
            ((mem_still_filter s c' (dedupInt ids) id).mpr ⟨huid, hpend⟩)]
          simp [indPending, hpend]
        · rw [List.count_eq_zero_of_not_mem
            (fun hcon => hpend ((mem_still_filter s c' (dedupInt ids) id).mp hcon).2)]
          simp [indPending, hpend]
      · rw [if_neg huid, List.count_eq_zero_of_not_mem
          (fun hcon => huid ((mem_still_filter s c' (dedupInt ids) id).mp hcon).1)]
        exact Nat.zero_add _
    · simp only [stepEv]
      rw [resultsFor_emit_other c c' id _ hcc]
      have hpres : (c, id) ∈ (removeIds s c' (dedupInt ids)).pending ↔ (c, id) ∈ s.pending := by
        rw [mem_removeIds]
        exact ⟨fun h => h.1, fun h => ⟨h, fun hcon => hcc hcon.1.symm⟩⟩
      simp [indPending, hpres]

theorem runEvents_count (c : Nat) (id : Int) :
    ∀ (es : List PoolEv) (s : EngineState),
      (resultsFor c id (runEvents s es).2).length + indPending (runEvents s es).1 c id =
        indPending s c id := by
  intro es
  induction es with
  | nil => intro s; simp [runEvents, resultsFor]
  | cons e rest ih =>
    intro s
    simp only [runEvents, resultsFor_append, List.length_append]
    have h1 := stepEv_count s e c id
    have h2 := ih (stepEv s e).1
    omega

theorem stepEv_pending_subset (s : EngineState) (e : PoolEv) (p : Nat × Int) :
    p ∈ (stepEv s e).1.pending → p ∈ s.pending := by
  cases e with
  | reply c results =>
    exact fun h => resolveBatch_pending_subset c results s p h
  | timeoutFire c ids =>
    intro h
    exact ((mem_removeIds s c (dedupInt ids) p).mp h).1

theorem runEvents_pending_subset :
    ∀ (es : List PoolEv) (s : EngineState) (p : Nat × Int),
      p ∈ (runEvents s es).1.pending → p ∈ s.pending := by
  intro es
  induction es with
  | nil => intro s p h; simpa [runEvents] using h
  | cons e rest ih =>
    intro s p h
    exact stepEv_pending_subset s e p (ih (stepEv s e).1 p h)

theorem stepEv_resolves (s : EngineState) (e : PoolEv) (c : Nat) (id : Int)
    (h : resolvesId c id e) : (c, id) ∉ (stepEv s e).1.pending := by
  cases e with
  | reply c' results =>
    obtain ⟨rfl, hid⟩ := h
    exact resolveBatch_not_mem_of_resolved c' id results s hid
  | timeoutFire c' ids =>
    obtain ⟨rfl, hid⟩ := h
    intro hcon
    have := (mem_removeIds s c' (dedupInt ids) (c', id)).mp hcon
    exact this.2 ⟨rfl, (mem_dedupInt ids id).mpr hid⟩

theorem runEvents_append :
    ∀ (xs ys : List PoolEv) (s : EngineState),
      runEvents s (xs ++ ys) =
        ((runEvents (runEvents s xs).1 ys).1,
         (runEvents s xs).2 ++ (runEvents (runEvents s xs).1 ys).2) := by
  intro xs
  induction xs with
  | nil => intro ys s; simp [runEvents]
  | cons e rest ih =>
    intro ys s
    simp [runEvents, ih ys (stepEv s e).1, List.append_assoc]

/-- Every pending entry resolved by some event of the trace is delivered
exactly once: the core of the exactly-one-terminal-result guarantee. -/
theorem pool_terminal_count (s : EngineState) (c : Nat) (id : Int) (es : List PoolEv)
    (hpend : (c, id) ∈ s.pending) (hterm : ∃ e ∈ es, resolvesId c id e) :
    (resultsFor c id (runEvents s es).2).length = 1 := by
  obtain ⟨e, he, hres⟩ := hterm
  obtain ⟨l1, l2, rfl⟩ := List.append_of_mem he
  have hid := runEvents_count c id (l1 ++ e :: l2) s
  have hfin : (c, id) ∉ (runEvents s (l1 ++ e :: l2)).1.pending := by
    rw [runEvents_append l1 (e :: l2) s]
    intro hcon
    simp only [runEvents] at hcon
    exact stepEv_resolves (runEvents s l1).1 e c id hres
      (runEvents_pending_subset l2 _ (c, id) hcon)
  have h1 : indPending s c id = 1 := by simp [indPending, hpend]
  have h2 : indPending (runEvents s (l1 ++ e :: l2)).1 c id = 0 := by
    simp [indPending, hfin]
  omega

theorem stepEv_noreply_shape (s : EngineState) (e : PoolEv) (c : Nat) (id : Int)
    (h : ¬ replyFor c id e) :
    ∀ r ∈ resultsFor c id (stepEv s e).2, r = timeoutResult id := by
  cases e with
  | reply c' results =>
    by_cases hcc : c' = c
    · subst hcc
      simp only [stepEv]
      rw [resultsFor_emit]
      intro r hr
      rcases List.mem_filter.mp hr with ⟨hrmem, hrid⟩
      exfalso
      apply h
      refine ⟨rfl, ?_⟩
      have : r.requestId = id := by simpa using hrid
      exact this ▸ List.mem_map_of_mem (·.requestId)
        (resolveBatch_results_subset c' results s r hrmem)
    · simp only [stepEv]
      rw [resultsFor_emit_other c c' id _ hcc]
      intro r hr
      simp at hr
  | timeoutFire c' ids =>
    by_cases hcc : c' = c
    · subst hcc
      simp only [stepEv]
      rw [resultsFor_emit]
      intro r hr
      rcases List.mem_filter.mp hr with ⟨hrmem, hrid⟩
      rcases List.mem_map.mp hrmem with ⟨x, -, rfl⟩
      have : x = id := by simpa [timeoutResult] using hrid
      rw [this]
    · simp only [stepEv]
      rw [resultsFor_emit_other c c' id _ hcc]
      intro r hr
      simp at hr

/-- When no hardware reply for `(c, id)` occurs in the trace, every result
delivered for it is the synthetic timeout result. -/
theorem pool_noreply_shape (c : Nat) (id : Int) :
    ∀ (es : List PoolEv) (s : EngineState), (∀ e ∈ es, ¬ replyFor c id e) →
      ∀ r ∈ resultsFor c id (runEvents s es).2, r = timeoutResult id := by
  intro es
  induction es with
  | nil => intro s _ r hr; simp [runEvents, resultsFor] at hr
  | cons e rest ih =>
    intro s hno r hr
    simp only [runEvents, resultsFor_append, List.mem_append] at hr
    rcases hr with hr | hr
    · exact stepEv_noreply_shape s e c id (hno e (List.mem_cons_self e rest)) r hr
    · exact ih (stepEv s e).1 (fun e' he' => hno e' (List.mem_cons_of_mem e he')) r hr

/-! ## Request dispatcher

Modelled from the spec: the missing RequestDispatcher (spec section 4.5).
A call is parametrised by the hardware driver `hw`, which returns its
synchronous status and, optionally, an inline batch of results (`none` models
a reply that will arrive later as a pool event).
-/

/-- A get or set request: (request id, property value). -/
abbrev VhalRequest := Int × VehiclePropValue

/-- Whether a list of ids contains a duplicate. -/
def hasDupIds : List Int → Bool
  | [] => false
  | x :: xs => xs.contains x || hasDupIds xs

/-- The per-item validation failures of a batch: invalid items are filtered
out and reported with their failing status (spec section 4.5 stage 3). -/
def failResults (isSet : Bool) (cfgs : List PropConfig) (reqs : List VhalRequest) :
    List VhalResult :=
  (reqs.filter (fun r => !(validateRequest isSet cfgs r.2 == .ok))).map
    (fun r => ⟨r.1, validateRequest isSet cfgs r.2, none⟩)

/-- The items of a batch that survive per-item validation. -/
def validRequests (isSet : Bool) (cfgs : List PropConfig) (reqs : List VhalRequest) :
    List VhalRequest :=
  reqs.filter (fun r => validateRequest isSet cfgs r.2 == .ok)

/-- Outcome of a `getValues`/`setValues` call: the synchronous status, the
pool state after the call, the callback invocations emitted during the call,
and the batch forwarded to the hardware driver. -/
structure CallOutcome where
  status : StatusCode
  state : EngineState
  invocations : List (Nat × List VhalResult)
  hwRequests : List VhalRequest

/-- Modelled from the spec: `getValues`/`setValues` dispatch (spec section 4.5).
Stages: intra-batch duplicate checks (request ids, then property ids), per-item
validation with filtering, `tryAdd` registration of the surviving ids
(duplicate-in-flight fails the whole call), forwarding to the hardware driver,
synchronous-failure rollback, and callback delivery (validation failures as
one batch, inline hardware results as one batch). -/
def dispatchCall (isSet : Bool) (cfgs : List PropConfig)
    (hw : List VhalRequest → StatusCode × Option (List VhalResult))
    (s : EngineState) (client : Nat) (reqs : List VhalRequest) : CallOutcome :=
  if hasDupIds (reqs.map (·.1)) then ⟨.invalidArg, s, [], []⟩
  else if hasDupIds (reqs.map (fun r => r.2.prop)) then ⟨.invalidArg, s, [], []⟩
  else
    let oks := validRequests isSet cfgs reqs
    let fails := failResults isSet cfgs reqs
    if oks.isEmpty then ⟨.ok, s, emit client fails, []⟩
    else
      match tryAdd s client (oks.map (·.1)) with
      | none => ⟨.invalidArg, s, [], []⟩
      | some s1 =>
        if (hw oks).1 = .ok then
          match (hw oks).2 with
          | none => ⟨.ok, s1, emit client fails, oks⟩
          | some results =>
            ⟨.ok, (resolveBatch s1 client results).1,
             emit client fails ++ emit client (resolveBatch s1 client results).2, oks⟩
        else ⟨(hw oks).1, removeIds s1 client (oks.map (·.1)), [], oks⟩

theorem validateRequest_ok_or_invalid (isSet : Bool) (cfgs : List PropConfig)
    (v : VehiclePropValue) :
    validateRequest isSet cfgs v = .ok ∨ validateRequest isSet cfgs v = .invalidArg := by
  unfold validateRequest
  split
  · right; rfl
  · split
    · split
      · split
        · right; rfl
        · split
          · split
            · left; rfl
            · right; rfl
          · left; rfl
      · left; rfl
    · right; rfl

theorem failResults_all_invalid (isSet : Bool) (cfgs : List PropConfig)
    (reqs : List VhalRequest) :
    failResults isSet cfgs reqs =
      (reqs.filter (fun r => !(validateRequest isSet cfgs r.2 == .ok))).map
        (fun r => ⟨r.1, .invalidArg, none⟩) := by
  unfold failResults
  apply List.map_congr_left
  intro r hr
  have hne := (List.mem_filter.mp hr).2
  rcases validateRequest_ok_or_invalid isSet cfgs r.2 with hok | hbad
  · rw [hok] at hne; simp at hne
  · rw [hbad]

theorem validRequests_of_all_valid (isSet : Bool) (cfgs : List PropConfig)
    (reqs : List VhalRequest) (h : ∀ r ∈ reqs, validateRequest isSet cfgs r.2 = .ok) :
    validRequests isSet cfgs reqs = reqs := by
  unfold validRequests
  apply List.filter_eq_self.mpr
  intro r hr
  simp [h r hr]

theorem failResults_of_all_valid (isSet : Bool) (cfgs : List PropConfig)
    (reqs : List VhalRequest) (h : ∀ r ∈ reqs, validateRequest isSet cfgs r.2 = .ok) :
    failResults isSet cfgs reqs = [] := by
  unfold failResults
  have : reqs.filter (fun r => !(validateRequest isSet cfgs r.2 == .ok)) = [] := by
    apply List.filter_eq_nil_iff.mpr
    intro r hr
    simp [h r hr]
  rw [this]
  rfl

theorem tryAdd_of_disjoint (s : EngineState) (c : Nat) (ids : List Int)
    (h : ∀ id ∈ ids, (c, id) ∉ s.pending) :
    tryAdd s c ids = some ⟨s.pending ++ ids.map (fun id => (c, id))⟩ := by
  unfold tryAdd
  have hany : ids.any (fun id => s.pending.contains (c, id)) = false := by
    rw [List.any_eq_false]
    intro id hid
    simpa using h id hid
  rw [hany]
  rfl

theorem tryAdd_of_conflict (s : EngineState) (c : Nat) (ids : List Int)
    (id : Int) (hid : id ∈ ids) (h : (c, id) ∈ s.pending) :
    tryAdd s c ids = none := by
  unfold tryAdd
  have hany : ids.any (fun i => s.pending.contains (c, i)) = true := by
    rw [List.any_eq_true]
    exact ⟨id, hid, by simpa using h⟩
  rw [hany]
  rfl

theorem rollback_of_disjoint (s : EngineState) (c : Nat) (ids : List Int)
    (h : ∀ id ∈ ids, (c, id) ∉ s.pending) :
    removeIds ⟨s.pending ++ ids.map (fun id => (c, id))⟩ c ids = s := by
  unfold removeIds
  simp only [List.filter_append]
  have h1 : s.pending.filter (fun p => !(p.1 == c && ids.contains p.2)) = s.pending := by
    apply List.filter_eq_self.mpr
    intro p hp
    by_cases h1 : p.1 = c
    · by_cases h2 : p.2 ∈ ids
      · exact absurd (show (c, p.2) ∈ s.pending by rw [← h1]; exact hp) (h p.2 h2)
      · simp [h2]
    · simp [h1]
  have h2 : (ids.map (fun id => (c, id))).filter
      (fun p => !(p.1 == c && ids.contains p.2)) = [] := by
    apply List.filter_eq_nil_iff.mpr
    intro p hp
    rcases List.mem_map.mp hp with ⟨id, hid, rfl⟩
    simp [hid]
  rw [h1, h2, List.append_nil]

theorem dispatchCall_dup_reqIds (isSet : Bool) (cfgs : List PropConfig)
    (hw : List VhalRequest → StatusCode × Option (List VhalResult))
    (s : EngineState) (client : Nat) (reqs : List VhalRequest)
    (h : hasDupIds (reqs.map (·.1)) = true) :
    dispatchCall isSet cfgs hw s client reqs = ⟨.invalidArg, s, [], []⟩ := by
  unfold dispatchCall
  simp [h]

theorem dispatchCall_dup_props (isSet : Bool) (cfgs : List PropConfig)
    (hw : List VhalRequest → StatusCode × Option (List VhalResult))
    (s : EngineState) (client : Nat) (reqs : List VhalRequest)
    (h : hasDupIds (reqs.map (fun r => r.2.prop)) = true) :
    dispatchCall isSet cfgs hw s client reqs = ⟨.invalidArg, s, [], []⟩ := by
  unfold dispatchCall
  by_cases h1 : hasDupIds (reqs.map (·.1)) <;> simp [h1, h]

theorem dispatchCall_all_invalid (isSet : Bool) (cfgs : List PropConfig)
    (hw : List VhalRequest → StatusCode × Option (List VhalResult))
    (s : EngineState) (client : Nat) (reqs : List VhalRequest)
    (h1 : hasDupIds (reqs.map (·.1)) = false)
    (h2 : hasDupIds (reqs.map (fun r => r.2.prop)) = false)
    (hoks : (validRequests isSet cfgs reqs).isEmpty = true) :
    dispatchCall isSet cfgs hw s client reqs =
      ⟨.ok, s, emit client (failResults isSet cfgs reqs), []⟩ := by
  unfold dispatchCall
  simp [h1, h2, hoks]

theorem dispatchCall_inflight_dup (isSet : Bool) (cfgs : List PropConfig)
    (hw : List VhalRequest → StatusCode × Option (List VhalResult))
    (s : EngineState) (client : Nat) (reqs : List VhalRequest)
    (h1 : hasDupIds (reqs.map (·.1)) = false)
    (h2 : hasDupIds (reqs.map (fun r => r.2.prop)) = false)
    (hoks : (validRequests isSet cfgs reqs).isEmpty = false)
    (hadd : tryAdd s client ((validRequests isSet cfgs reqs).map (·.1)) = none) :
    dispatchCall isSet cfgs hw s client reqs = ⟨.invalidArg, s, [], []⟩ := by
  unfold dispatchCall
  simp [h1, h2, hoks, hadd]

theorem dispatchCall_hw_fail (isSet : Bool) (cfgs : List PropConfig)
    (hw : List VhalRequest → StatusCode × Option (List VhalResult))
    (s : EngineState) (client : Nat) (reqs : List VhalRequest)
    (h1 : hasDupIds (reqs.map (·.1)) = false)
    (h2 : hasDupIds (reqs.map (fun r => r.2.prop)) = false)
    (hoks : (validRequests isSet cfgs reqs).isEmpty = false)
    (s1 : EngineState)
    (hadd : tryAdd s client ((validRequests isSet cfgs reqs).map (·.1)) = some s1)
    (hhw : (hw (validRequests isSet cfgs reqs)).1 ≠ .ok) :
    dispatchCall isSet cfgs hw s client reqs =
      ⟨(hw (validRequests isSet cfgs reqs)).1,
       removeIds s1 client ((validRequests isSet cfgs reqs).map (·.1)), [],
       validRequests isSet cfgs reqs⟩ := by
  unfold dispatchCall
  simp [h1, h2, hoks, hadd, hhw]

theorem dispatchCall_deferred (isSet : Bool) (cfgs : List PropConfig)
    (hw : List VhalRequest → StatusCode × Option (List VhalResult))
    (s : EngineState) (client : Nat) (reqs : List VhalRequest)
    (h1 : hasDupIds (reqs.map (·.1)) = false)
    (h2 : hasDupIds (reqs.map (fun r => r.2.prop)) = false)
    (hoks : (validRequests isSet cfgs reqs).isEmpty = false)
    (s1 : EngineState)
    (hadd : tryAdd s client ((validRequests isSet cfgs reqs).map (·.1)) = some s1)
    (hhw : hw (validRequests isSet cfgs reqs) = (.ok, none)) :
    dispatchCall isSet cfgs hw s client reqs =
      ⟨.ok, s1, emit client (failResults isSet cfgs reqs),
       validRequests isSet cfgs reqs⟩ := by
  unfold dispatchCall
  simp [h1, h2, hoks, hadd, hhw]

theorem dispatchCall_inline (isSet : Bool) (cfgs : List PropConfig)
    (hw : List VhalRequest → StatusCode × Option (List VhalResult))
    (s : EngineState) (client : Nat) (reqs : List VhalRequest)
    (h1 : hasDupIds (reqs.map (·.1)) = false)
    (h2 : hasDupIds (reqs.map (fun r => r.2.prop)) = false)
    (hoks : (validRequests isSet cfgs reqs).isEmpty = false)
    (s1 : EngineState)
    (hadd : tryAdd s client ((validRequests isSet cfgs reqs).map (·.1)) = some s1)
    (results : List VhalResult)
    (hhw : hw (validRequests isSet cfgs reqs) = (.ok, some results)) :
    dispatchCall isSet cfgs hw s client reqs =
      ⟨.ok, (resolveBatch s1 client results).1,
       emit client (failResults isSet cfgs reqs) ++
         emit client (resolveBatch s1 client results).2,
       validRequests isSet cfgs reqs⟩ := by
  unfold dispatchCall
  simp [h1, h2, hoks, hadd, hhw]

theorem hasDupIds_eq_true_iff : ∀ l : List Int, hasDupIds l = true ↔ ¬ l.Nodup := by
  intro l
  induction l with
  | nil => simp [hasDupIds]
  | cons x xs ih =>
    simp [hasDupIds, ih, List.nodup_cons]
    tauto

theorem hasDupIds_eq_false_iff (l : List Int) : hasDupIds l = false ↔ l.Nodup := by
  rw [← Bool.not_eq_true, hasDupIds_eq_true_iff, not_not]

theorem emit_of_ne (c : Nat) (d : List VhalResult) (h : d ≠ []) :
    emit c d = [(c, d)] := by
  have : d.isEmpty = false := by simpa using h
  simp [emit, this]

theorem eq_singleton_of_length_one {α : Type} {l : List α} {x : α}
    (h1 : l.length = 1) (h2 : ∀ r ∈ l, r = x) : l = [x] := by
  rcases l with _ | ⟨a, _ | ⟨b, tl⟩⟩
  · simp at h1
  · rw [h2 a (by simp)]
  · simp at h1

/-- C3: a `getValues`/`setValues` batch in which two requests share a request
id, or two requests share a property id, fails synchronously with
`INVALID_ARG`: the pool is untouched, no callback fires, and nothing is
forwarded to the hardware. -/
theorem batch_dup_rejected (isSet : Bool) (cfgs : List PropConfig)
    (hw : List VhalRequest → StatusCode × Option (List VhalResult))
    (s : EngineState) (client : Nat) (reqs : List VhalRequest)
    (h : ¬ (reqs.map (·.1)).Nodup ∨ ¬ (reqs.map (fun r => r.2.prop)).Nodup) :
    (dispatchCall isSet cfgs hw s client reqs).status = .invalidArg ∧
    (dispatchCall isSet cfgs hw s client reqs).state = s ∧
    (dispatchCall isSet cfgs hw s client reqs).invocations = [] ∧
    (dispatchCall isSet cfgs hw s client reqs).hwRequests = [] := by
  rcases h with h | h
  · rw [dispatchCall_dup_reqIds isSet cfgs hw s client reqs
      ((hasDupIds_eq_true_iff _).mpr h)]
    exact ⟨rfl, rfl, rfl, rfl⟩
  · by_cases h1 : hasDupIds (reqs.map (·.1))
    · rw [dispatchCall_dup_reqIds isSet cfgs hw s client reqs h1]
      exact ⟨rfl, rfl, rfl, rfl⟩
    · rw [dispatchCall_dup_props isSet cfgs hw s client reqs
        ((hasDupIds_eq_true_iff _).mpr h)]
      exact ⟨rfl, rfl, rfl, rfl⟩

/-- Witness for C3: a two-request batch reusing request id 0 is rejected with
`INVALID_ARG` and registers nothing. -/
theorem batch_dup_rejected_witness :
    (dispatchCall true [] (fun _ => (.ok, none)) ⟨[]⟩ 0
      [(0, ⟨1, 0, [1]⟩), (0, ⟨2, 0, [1]⟩)]).status = .invalidArg ∧
    (dispatchCall true [] (fun _ => (.ok, none)) ⟨[]⟩ 0
      [(0, ⟨1, 0, [1]⟩), (0, ⟨2, 0, [1]⟩)]).state = ⟨[]⟩ :=
  ⟨(batch_dup_rejected true [] (fun _ => (.ok, none)) ⟨[]⟩ 0
      [(0, ⟨1, 0, [1]⟩), (0, ⟨2, 0, [1]⟩)] (Or.inl (by decide))).1,
   (batch_dup_rejected true [] (fun _ => (.ok, none)) ⟨[]⟩ 0
      [(0, ⟨1, 0, [1]⟩), (0, ⟨2, 0, [1]⟩)] (Or.inl (by decide))).2.1⟩

/-- C4: a call that reuses a request id still in flight for the same client
fails synchronously with `INVALID_ARG`; the pool is untouched and no callback
fires, so the earlier pending request still yields exactly one terminal
result on any trace that resolves it. -/
theorem inflight_dup_rejected (isSet : Bool) (cfgs : List PropConfig)
    (hw : List VhalRequest → StatusCode × Option (List VhalResult))
    (s : EngineState) (client : Nat) (reqs : List VhalRequest)
    (hvalid : ∀ r ∈ reqs, validateRequest isSet cfgs r.2 = .ok)
    (id : Int) (hid : id ∈ reqs.map (·.1))
    (hpend : (client, id) ∈ s.pending) :
    (dispatchCall isSet cfgs hw s client reqs).status = .invalidArg ∧
    (dispatchCall isSet cfgs hw s client reqs).state = s ∧
    (dispatchCall isSet cfgs hw s client reqs).invocations = [] ∧
    (∀ es : List PoolEv, (∃ e ∈ es, resolvesId client id e) →
      (resultsFor client id
        (runEvents (dispatchCall isSet cfgs hw s client reqs).state es).2).length = 1) := by
  have hterm : ∀ es : List PoolEv, (∃ e ∈ es, resolvesId client id e) →
      (resultsFor client id (runEvents s es).2).length = 1 :=
    fun es h => pool_terminal_count s client id es hpend h
  by_cases h1 : hasDupIds (reqs.map (·.1))
  · rw [dispatchCall_dup_reqIds isSet cfgs hw s client reqs h1]
    exact ⟨rfl, rfl, rfl, hterm⟩
  · by_cases h2 : hasDupIds (reqs.map (fun r => r.2.prop))
    · rw [dispatchCall_dup_props isSet cfgs hw s client reqs h2]
      exact ⟨rfl, rfl, rfl, hterm⟩
    · have hval : validRequests isSet cfgs reqs = reqs :=
        validRequests_of_all_valid isSet cfgs reqs hvalid
      have hne : reqs ≠ [] := by
        intro hnil
        rw [hnil] at hid
        simp at hid
      have hoks : (validRequests isSet cfgs reqs).isEmpty = false := by
        rw [hval]
        simpa using hne
      have hadd : tryAdd s client ((validRequests isSet cfgs reqs).map (·.1)) = none := by
        rw [hval]
        exact tryAdd_of_conflict s client (reqs.map (·.1)) id hid hpend
      rw [dispatchCall_inflight_dup isSet cfgs hw s client reqs
        (Bool.not_eq_true _ ▸ h1 : hasDupIds (reqs.map (·.1)) = false)
        (Bool.not_eq_true _ ▸ h2) hoks hadd]
      exact ⟨rfl, rfl, rfl, hterm⟩

/-- Witness for C4: with request id 5 already in flight for client 0, a new
one-request batch reusing id 5 is rejected and the pool keeps its entry. -/
theorem inflight_dup_rejected_witness :
    (dispatchCall false [⟨1, .onChange, [], 0, 0⟩] (fun _ => (.ok, none)) ⟨[(0, 5)]⟩ 0
      [(5, ⟨1, 0, []⟩)]).status = .invalidArg ∧
    (dispatchCall false [⟨1, .onChange, [], 0, 0⟩] (fun _ => (.ok, none)) ⟨[(0, 5)]⟩ 0
      [(5, ⟨1, 0, []⟩)]).state = ⟨[(0, 5)]⟩ := by
  have h := inflight_dup_rejected false [⟨1, .onChange, [], 0, 0⟩] (fun _ => (.ok, none))
    ⟨[(0, 5)]⟩ 0 [(5, ⟨1, 0, []⟩)] (by decide) 5 (by decide) (by decide)
  exact ⟨h.1, h.2.1⟩

/-- C6: when the hardware driver's synchronous status for the forwarded batch
is non-OK, the whole call fails with that very status, no per-request callback
fires, and the newly registered pending entries are rolled back, leaving the
pool exactly as before the call. -/
theorem hw_sync_failure_rolls_back (isSet : Bool) (cfgs : List PropConfig)
    (hw : List VhalRequest → StatusCode × Option (List VhalResult))
    (s : EngineState) (client : Nat) (reqs : List VhalRequest)
    (h1 : (reqs.map (·.1)).Nodup) (h2 : (reqs.map (fun r => r.2.prop)).Nodup)
    (hne : validRequests isSet cfgs reqs ≠ [])
    (hdisj : ∀ id ∈ (validRequests isSet cfgs reqs).map (·.1), (client, id) ∉ s.pending)
    (hhw : (hw (validRequests isSet cfgs reqs)).1 ≠ .ok) :
    (dispatchCall isSet cfgs hw s client reqs).status =
      (hw (validRequests isSet cfgs reqs)).1 ∧
    (dispatchCall isSet cfgs hw s client reqs).state = s ∧
    (dispatchCall isSet cfgs hw s client reqs).invocations = [] ∧
    (dispatchCall isSet cfgs hw s client reqs).state.pending.length = s.pending.length := by
  have hoks : (validRequests isSet cfgs reqs).isEmpty = false := by simpa using hne
  have hadd := tryAdd_of_disjoint s client ((validRequests isSet cfgs reqs).map (·.1)) hdisj
  rw [dispatchCall_hw_fail isSet cfgs hw s client reqs
    ((hasDupIds_eq_false_iff _).mpr h1) ((hasDupIds_eq_false_iff _).mpr h2) hoks _ hadd hhw]
  have hroll := rollback_of_disjoint s client ((validRequests isSet cfgs reqs).map (·.1)) hdisj
  exact ⟨rfl, hroll, rfl, by rw [hroll]⟩

/-- Witness for C6: hardware returning `INTERNAL_ERROR` fails the call with
`INTERNAL_ERROR` and leaves the pool empty as before. -/
theorem hw_sync_failure_rolls_back_witness :
    (dispatchCall false [⟨1, .onChange, [], 0, 0⟩] (fun _ => (.internalError, none))
      ⟨[]⟩ 0 [(5, ⟨1, 0, []⟩)]).status = .internalError ∧
    (dispatchCall false [⟨1, .onChange, [], 0, 0⟩] (fun _ => (.internalError, none))
      ⟨[]⟩ 0 [(5, ⟨1, 0, []⟩)]).state = ⟨[]⟩ := by
  have h := hw_sync_failure_rolls_back false [⟨1, .onChange, [], 0, 0⟩]
    (fun _ => (.internalError, none)) ⟨[]⟩ 0 [(5, ⟨1, 0, []⟩)]
    (by decide) (by decide) (by decide) (by decide) (by decide)
  exact ⟨h.1, h.2.1⟩

/-- C5: in a batch with unique ids, invalid items are not fatal: the call
returns OK, every invalid item is reported to the callback with status
`INVALID_ARG` in the first (single) failure invocation, and exactly the items
that pass validation are forwarded to the hardware driver. -/
theorem invalid_items_filtered (isSet : Bool) (cfgs : List PropConfig)
    (hw : List VhalRequest → StatusCode × Option (List VhalResult))
    (s : EngineState) (client : Nat) (reqs : List VhalRequest)
    (h1 : (reqs.map (·.1)).Nodup) (h2 : (reqs.map (fun r => r.2.prop)).Nodup)
    (hdisj : ∀ id ∈ (validRequests isSet cfgs reqs).map (·.1), (client, id) ∉ s.pending)
    (hhw : (hw (validRequests isSet cfgs reqs)).1 = .ok) :
    (dispatchCall isSet cfgs hw s client reqs).status = .ok ∧
    (dispatchCall isSet cfgs hw s client reqs).hwRequests =
      reqs.filter (fun r => validateRequest isSet cfgs r.2 == .ok) ∧
    (failResults isSet cfgs reqs ≠ [] →
      (dispatchCall isSet cfgs hw s client reqs).invocations.head? =
        some (client, (reqs.filter (fun r => !(validateRequest isSet cfgs r.2 == .ok))).map
          (fun r => ⟨r.1, .invalidArg, none⟩))) := by
  have hb1 := (hasDupIds_eq_false_iff (reqs.map (·.1))).mpr h1
  have hb2 := (hasDupIds_eq_false_iff (reqs.map (fun r => r.2.prop))).mpr h2
  have hfail := failResults_all_invalid isSet cfgs reqs
  by_cases hoks : (validRequests isSet cfgs reqs).isEmpty
  · rw [dispatchCall_all_invalid isSet cfgs hw s client reqs hb1 hb2 hoks]
    have hnil : validRequests isSet cfgs reqs = [] := by simpa using hoks
    refine ⟨rfl, by rw [← hnil]; rfl, fun hne => ?_⟩
    rw [emit_of_ne client _ hne, ← hfail]
    rfl
  · have hoksf : (validRequests isSet cfgs reqs).isEmpty = false := by
      simpa using hoks
    have hadd := tryAdd_of_disjoint s client ((validRequests isSet cfgs reqs).map (·.1)) hdisj
    rcases hrep : (hw (validRequests isSet cfgs reqs)).2 with _ | results
    · have hpair : hw (validRequests isSet cfgs reqs) = (.ok, none) := by
        rw [← hhw, ← hrep]
      rw [dispatchCall_deferred isSet cfgs hw s client reqs hb1 hb2 hoksf _ hadd hpair]
      refine ⟨rfl, rfl, fun hne => ?_⟩
      rw [emit_of_ne client _ hne, ← hfail]
      rfl
    · have hpair : hw (validRequests isSet cfgs reqs) = (.ok, some results) := by
        rw [← hhw, ← hrep]
      rw [dispatchCall_inline isSet cfgs hw s client reqs hb1 hb2 hoksf _ hadd results hpair]
      refine ⟨rfl, rfl, fun hne => ?_⟩
      show (emit client (failResults isSet cfgs reqs) ++ _).head? = _
      rw [emit_of_ne client _ hne, ← hfail]
      rfl

/-- Witness for C5: a two-item set batch whose first item targets an unknown
property returns OK, reports `INVALID_ARG` for id 0 in the first callback
batch, and forwards only the valid item (id 1) to the hardware. -/
theorem invalid_items_filtered_witness :
    (dispatchCall true [⟨1, .onChange, [], 0, 0⟩] (fun _ => (.ok, none)) ⟨[]⟩ 0
      [(0, ⟨99, 0, [7]⟩), (1, ⟨1, 0, [7]⟩)]).status = .ok ∧
    (dispatchCall true [⟨1, .onChange, [], 0, 0⟩] (fun _ => (.ok, none)) ⟨[]⟩ 0
      [(0, ⟨99, 0, [7]⟩), (1, ⟨1, 0, [7]⟩)]).hwRequests = [(1, ⟨1, 0, [7]⟩)] ∧
    (dispatchCall true [⟨1, .onChange, [], 0, 0⟩] (fun _ => (.ok, none)) ⟨[]⟩ 0
      [(0, ⟨99, 0, [7]⟩), (1, ⟨1, 0, [7]⟩)]).invocations.head? =
      some (0, [⟨0, .invalidArg, none⟩]) := by
  have h := invalid_items_filtered true [⟨1, .onChange, [], 0, 0⟩] (fun _ => (.ok, none))
    ⟨[]⟩ 0 [(0, ⟨99, 0, [7]⟩), (1, ⟨1, 0, [7]⟩)] (by decide) (by decide)
    (by decide) (by decide)
  refine ⟨h.1, ?_, ?_⟩
  · rw [h.2.1]
    decide
  · rw [h.2.2 (by decide)]
    decide

theorem emit_nil (c : Nat) : emit c [] = [] := rfl

/-- C1: for an accepted batch with pairwise-unique request ids and property
ids whose hardware reply is deferred, every request id of the batch produces
exactly one terminal result through the callback on any event trace that
resolves it (a hardware reply or the batch deadline firing); when no hardware
reply for that id occurs in the trace, the single delivered result is the
synthetic `TRY_AGAIN` with no value, and a reply arriving after the timeout
produces no second delivery. -/
theorem exactly_one_terminal_result (isSet : Bool) (cfgs : List PropConfig)
    (hw : List VhalRequest → StatusCode × Option (List VhalResult))
    (s : EngineState) (client : Nat) (reqs : List VhalRequest)
    (h1 : (reqs.map (·.1)).Nodup) (h2 : (reqs.map (fun r => r.2.prop)).Nodup)
    (hvalid : ∀ r ∈ reqs, validateRequest isSet cfgs r.2 = .ok)
    (hdisj : ∀ r ∈ reqs, (client, r.1) ∉ s.pending)
    (hhw : hw reqs = (.ok, none))
    (id : Int) (hid : id ∈ reqs.map (·.1))
    (es : List PoolEv) (hterm : ∃ e ∈ es, resolvesId client id e) :
    (dispatchCall isSet cfgs hw s client reqs).status = .ok ∧
    (resultsFor client id
      ((dispatchCall isSet cfgs hw s client reqs).invocations ++
        (runEvents (dispatchCall isSet cfgs hw s client reqs).state es).2)).length = 1 ∧
    ((∀ e ∈ es, ¬ replyFor client id e) →
      resultsFor client id
        ((dispatchCall isSet cfgs hw s client reqs).invocations ++
          (runEvents (dispatchCall isSet cfgs hw s client reqs).state es).2) =
        [timeoutResult id]) := by
  have hval : validRequests isSet cfgs reqs = reqs :=
    validRequests_of_all_valid isSet cfgs reqs hvalid
  have hfails : failResults isSet cfgs reqs = [] :=
    failResults_of_all_valid isSet cfgs reqs hvalid
  have hne : reqs ≠ [] := by
    intro hnil
    rw [hnil] at hid
    simp at hid
  have hoks : (validRequests isSet cfgs reqs).isEmpty = false := by
    rw [hval]; simpa using hne
  have hdisj' : ∀ i ∈ (validRequests isSet cfgs reqs).map (·.1), (client, i) ∉ s.pending := by
    rw [hval]
    intro i hi
    rcases List.mem_map.mp hi with ⟨r, hr, rfl⟩
    exact hdisj r hr
  have hadd := tryAdd_of_disjoint s client ((validRequests isSet cfgs reqs).map (·.1)) hdisj'
  have hpair : hw (validRequests isSet cfgs reqs) = (.ok, none) := by rw [hval]; exact hhw
  rw [dispatchCall_deferred isSet cfgs hw s client reqs
    ((hasDupIds_eq_false_iff _).mpr h1) ((hasDupIds_eq_false_iff _).mpr h2) hoks _ hadd hpair]
  rw [hfails, emit_nil]
  have hid' : id ∈ (validRequests isSet cfgs reqs).map (·.1) := by
    rw [hval]; exact hid
  have hpend : (client, id) ∈
      s.pending ++ ((validRequests isSet cfgs reqs).map (·.1)).map
        (fun i => (client, i)) :=
    List.mem_append_right _ (List.mem_map_of_mem (fun i => (client, i)) hid')
  refine ⟨rfl, ?_, ?_⟩
  · exact pool_terminal_count
      ⟨s.pending ++ ((validRequests isSet cfgs reqs).map (·.1)).map
        (fun i => (client, i))⟩ client id es hpend hterm
  · intro hnorep
    exact eq_singleton_of_length_one
      (pool_terminal_count
        ⟨s.pending ++ ((validRequests isSet cfgs reqs).map (·.1)).map
          (fun i => (client, i))⟩ client id es hpend hterm)
      (pool_noreply_shape client id es
        ⟨s.pending ++ ((validRequests isSet cfgs reqs).map (·.1)).map
          (fun i => (client, i))⟩ hnorep)

/-- Witness for C1: a one-request accepted get batch whose reply never comes
is delivered exactly once, as the synthetic `TRY_AGAIN` result, when the
deadline fires. -/
theorem exactly_one_terminal_result_witness :
    resultsFor 0 5
      ((dispatchCall false [⟨1, .onChange, [], 0, 0⟩] (fun _ => (.ok, none)) ⟨[]⟩ 0
        [(5, ⟨1, 0, []⟩)]).invocations ++
        (runEvents (dispatchCall false [⟨1, .onChange, [], 0, 0⟩] (fun _ => (.ok, none))
          ⟨[]⟩ 0 [(5, ⟨1, 0, []⟩)]).state [PoolEv.timeoutFire 0 [5]]).2) =
      [timeoutResult 5] := by
  have h := exactly_one_terminal_result false [⟨1, .onChange, [], 0, 0⟩]
    (fun _ => (.ok, none)) ⟨[]⟩ 0 [(5, ⟨1, 0, []⟩)] (by decide) (by decide) (by decide)
    (by decide) rfl 5 (by decide) [PoolEv.timeoutFire 0 [5]]
    ⟨PoolEv.timeoutFire 0 [5], List.mem_cons_self _ _, rfl, by decide⟩
  exact h.2.2 (fun e he => by
    rcases List.mem_singleton.mp he with rfl
    exact fun hf => hf)

theorem emit_length_le_one (c : Nat) (d : List VhalResult) : (emit c d).length ≤ 1 := by
  by_cases h : d.isEmpty <;> simp [emit, h]

theorem mem_emit (c : Nat) (d : List VhalResult) (inv : Nat × List VhalResult)
    (h : inv ∈ emit c d) : inv.1 = c ∧ inv.2 ≠ [] := by
  by_cases hd : d.isEmpty
  · simp [emit, hd] at h
  · simp only [emit, hd, Bool.false_eq_true, if_false, List.mem_singleton] at h
    subst h
    refine ⟨rfl, ?_⟩
    simpa using hd

/-- C9 counterexample: a mixed batch (one invalid item, one valid item whose
hardware result arrives inline) produces two callback invocations, not one:
the validation failure batch and the hardware result batch. -/
theorem single_batch_counterexample :
    (dispatchCall true [⟨1, .onChange, [], 0, 0⟩]
      (fun _ => (.ok, some [⟨1, .ok, none⟩])) ⟨[]⟩ 0
      [(0, ⟨99, 0, [7]⟩), (1, ⟨1, 0, [7]⟩)]).invocations =
      [(0, [⟨0, .invalidArg, none⟩]), (0, [⟨1, .ok, none⟩])] := by decide

/-- C9 (amended): the results of a `getValues`/`setValues` call are delivered
in at most two callback invocations, each addressed to the calling client and
each nonempty: the per-item validation failures (when any) arrive together as
the first batch, and the inline hardware results arrive together as one
batch. -/
theorem call_results_batched (isSet : Bool) (cfgs : List PropConfig)
    (hw : List VhalRequest → StatusCode × Option (List VhalResult))
    (s : EngineState) (client : Nat) (reqs : List VhalRequest) :
    (dispatchCall isSet cfgs hw s client reqs).invocations.length ≤ 2 ∧
    (∀ inv ∈ (dispatchCall isSet cfgs hw s client reqs).invocations,
      inv.1 = client ∧ inv.2 ≠ []) ∧
    ((dispatchCall isSet cfgs hw s client reqs).status = .ok →
      failResults isSet cfgs reqs ≠ [] →
      (dispatchCall isSet cfgs hw s client reqs).invocations.head? =
        some (client, failResults isSet cfgs reqs)) := by
  by_cases h1 : hasDupIds (reqs.map (·.1))
  · rw [dispatchCall_dup_reqIds isSet cfgs hw s client reqs h1]
    exact ⟨by simp, by simp, by intro h; cases h⟩
  · have hb1 : hasDupIds (reqs.map (·.1)) = false := by simpa using h1
    by_cases h2 : hasDupIds (reqs.map (fun r => r.2.prop))
    · rw [dispatchCall_dup_props isSet cfgs hw s client reqs h2]
      exact ⟨by simp, by simp, by intro h; cases h⟩
    · have hb2 : hasDupIds (reqs.map (fun r => r.2.prop)) = false := by simpa using h2
      by_cases hoks : (validRequests isSet cfgs reqs).isEmpty
      · rw [dispatchCall_all_invalid isSet cfgs hw s client reqs hb1 hb2 hoks]
        refine ⟨by
            have := emit_length_le_one client (failResults isSet cfgs reqs)
            simpa using Nat.le_trans this (by norm_num),
          fun inv hinv => mem_emit client _ inv hinv, fun _ hne => ?_⟩
        rw [emit_of_ne client _ hne]
        rfl
      · have hoksf : (validRequests isSet cfgs reqs).isEmpty = false := by simpa using hoks
        rcases hadd : tryAdd s client ((validRequests isSet cfgs reqs).map (·.1)) with _ | s1
        · rw [dispatchCall_inflight_dup isSet cfgs hw s client reqs hb1 hb2 hoksf hadd]
          exact ⟨by simp, by simp, by intro h; cases h⟩
        · by_cases hhw : (hw (validRequests isSet cfgs reqs)).1 = .ok
          · rcases hrep : (hw (validRequests isSet cfgs reqs)).2 with _ | results
            · have hpair : hw (validRequests isSet cfgs reqs) = (.ok, none) := by
                rw [← hhw, ← hrep]
              rw [dispatchCall_deferred isSet cfgs hw s client reqs hb1 hb2 hoksf _ hadd hpair]
              refine ⟨by
                  have := emit_length_le_one client (failResults isSet cfgs reqs)
                  simpa using Nat.le_trans this (by norm_num),
                fun inv hinv => mem_emit client _ inv hinv, fun _ hne => ?_⟩
              rw [emit_of_ne client _ hne]
              rfl
            · have hpair : hw (validRequests isSet cfgs reqs) = (.ok, some results) := by
                rw [← hhw, ← hrep]
              rw [dispatchCall_inline isSet cfgs hw s client reqs hb1 hb2 hoksf _ hadd
                results hpair]
              refine ⟨?_, ?_, fun _ hne => ?_⟩
              · show (emit client (failResults isSet cfgs reqs) ++
                  emit client (resolveBatch s1 client results).2).length ≤ 2
                rw [List.length_append]
                have ha := emit_length_le_one client (failResults isSet cfgs reqs)
                have hb := emit_length_le_one client (resolveBatch s1 client results).2
                omega
              · intro inv hinv
                rcases List.mem_append.mp hinv with hl | hr
                · exact mem_emit client _ inv hl
                · exact mem_emit client _ inv hr
              · show (emit client (failResults isSet cfgs reqs) ++
                  emit client (resolveBatch s1 client results).2).head? = _
                rw [emit_of_ne client _ hne]
                rfl
          · rw [dispatchCall_hw_fail isSet cfgs hw s client reqs hb1 hb2 hoksf _ hadd hhw]
            exact ⟨by simp, by simp, fun h => absurd h hhw⟩

/-! ## Subscription manager

Modelled from the spec: the missing SubscriptionManager (spec section 4.3).
The implementation state is the spec's "map from (propId, areaId) to a list of
subscriber refs", kept as an association list with unique keys; property
events are fanned out by looking the event's `(propId, areaId)` key up in that
map.  A second, spec-worded view (`runSpec`) tracks the current subscriptions
as a plain set of `(client, propId, areaId)` triples; claim C2 relates the
two.
-/

/-- `SubscribeOptions{propId, areaIds, sampleRate}` (spec section 4.3). -/
structure SubscribeOptions where
  propId : Int
  areaIds : List Int
  sampleRate : Rat
deriving DecidableEq, Repr

/-- Modelled from the spec: subscribe-option validation (spec section 4.3):
the property must exist, its change mode must not be static, the listed area
ids must all be configured, and for a continuous property the sample rate
must be strictly positive and inside `[minSampleRate, maxSampleRate]`. -/
def validateSubscribeOption (cfgs : List PropConfig) (o : SubscribeOptions) : StatusCode :=
  match lookupConfig cfgs o.propId with
  | none => .invalidArg
  | some cfg =>
    match cfg.changeMode with
    | .staticMode => .invalidArg
    | .onChange =>
      if o.areaIds.all (fun a => (configuredAreaIds cfg).contains a) then .ok
      else .invalidArg
    | .continuous =>
      if o.sampleRate ≤ 0 ∨ o.sampleRate < cfg.minSampleRate ∨
          cfg.maxSampleRate < o.sampleRate then .invalidArg
      else if o.areaIds.all (fun a => (configuredAreaIds cfg).contains a) then .ok
      else .invalidArg

/-- An empty `areaIds` list expands to every configured area of the property
(spec sections 4.3 and 9). -/
def expandAreas (cfg : PropConfig) (areaIds : List Int) : List Int :=
  if areaIds.isEmpty then configuredAreaIds cfg else areaIds

/-- The subscription map: `(propId, areaId)` keys to subscriber client lists. -/
structure SubManager where
  clientsByPropArea : List ((Int × Int) × List Nat)
deriving DecidableEq, Repr

/-- The subscribers recorded for one `(propId, areaId)` key. -/
def lookupClients (m : SubManager) (key : Int × Int) : List Nat :=
  match m.clientsByPropArea.find? (fun kv => kv.1 == key) with
  | some kv => kv.2
  | none => []

/-- Insert (or keep) client `c` in the subscriber list of `key`. -/
def addClientToKey (m : SubManager) (key : Int × Int) (c : Nat) : SubManager :=
  ⟨(key, if (lookupClients m key).contains c then lookupClients m key
         else c :: lookupClients m key)
     :: m.clientsByPropArea.filter (fun kv => !(kv.1 == key))⟩

/-- All `(propId, areaId)` keys a subscribe call touches: each option's
property paired with each of its expanded areas. -/
def subscribeKeys (cfgs : List PropConfig) (opts : List SubscribeOptions) :
    List (Int × Int) :=
  opts.flatMap (fun o =>
    match lookupConfig cfgs o.propId with
    | some cfg => (expandAreas cfg o.areaIds).map (fun a => (o.propId, a))
    | none => [])

/-- `subscribe`: validate every option; on any failure reject the whole call
with `INVALID_ARG` and install nothing; otherwise insert the client under
every touched key (spec section 4.3). -/
def implSubscribe (cfgs : List PropConfig) (m : SubManager) (c : Nat)
    (opts : List SubscribeOptions) : StatusCode × SubManager :=
  if opts.all (fun o => validateSubscribeOption cfgs o == .ok) then
    (.ok, (subscribeKeys cfgs opts).foldl (fun acc k => addClientToKey acc k c) m)
  else (.invalidArg, m)

/-- Whether client `c` holds a subscription on property `p` at any area. -/
def clientSubscribedToProp (m : SubManager) (c : Nat) (p : Int) : Bool :=
  m.clientsByPropArea.any (fun kv => kv.1.1 == p && kv.2.contains c)

/-- Drop client `c` from one map entry when its property id is listed. -/
def dropClientEntry (c : Nat) (props : List Int) (kv : (Int × Int) × List Nat) :
    (Int × Int) × List Nat :=
  if props.contains kv.1.1 then (kv.1, kv.2.filter (fun x => !(x == c))) else kv

/-- Drop client `c` from every key whose property id is listed. -/
def removeEntries (c : Nat) (props : List Int) :
    List ((Int × Int) × List Nat) → List ((Int × Int) × List Nat)
  | [] => []
  | kv :: rest => dropClientEntry c props kv :: removeEntries c props rest

/-- Drop client `c` from every key whose property id is listed. -/
def removeClientForProps (m : SubManager) (c : Nat) (props : List Int) : SubManager :=
  ⟨removeEntries c props m.clientsByPropArea⟩

/-- `unsubscribe`: fail with `INVALID_ARG` when the client has no subscription
on one of the requested properties; otherwise remove all its subscriptions on
them (spec section 4.3). -/
def implUnsubscribe (m : SubManager) (c : Nat) (props : List Int) :
    StatusCode × SubManager :=
  if props.all (fun p => clientSubscribedToProp m c p) then
    (.ok, removeClientForProps m c props)
  else (.invalidArg, m)

/-- Fan a property-change event out: the event is delivered to exactly the
clients recorded under the event's `(propId, areaId)` key; an event with no
matching subscriber is dropped (spec sections 4.3 and 8). -/
def deliver (m : SubManager) (v : VehiclePropValue) : List Nat :=
  lookupClients m (v.prop, v.areaId)

/-- A client-facing subscription call. -/
inductive SubCall
  | sub (c : Nat) (opts : List SubscribeOptions)
  | unsub (c : Nat) (props : List Int)

/-- Apply one call to the subscription map (the returned status is dropped;
failed calls leave the state unchanged). -/
def applyCall (cfgs : List PropConfig) (m : SubManager) : SubCall → SubManager
  | .sub c opts => (implSubscribe cfgs m c opts).2
  | .unsub c props => (implUnsubscribe m c props).2

/-- The subscription map reached from the empty state by a call sequence. -/
def runImpl (cfgs : List PropConfig) (calls : List SubCall) : SubManager :=
  calls.foldl (applyCall cfgs) ⟨[]⟩

/-- Following the spec's words (section 3, "Subscription" and section 8):
the set of currently held subscriptions as `(client, propId, areaId)`
triples: a valid subscribe adds the triple for every option and every
expanded area; a successful unsubscribe removes the client's triples on the
requested properties; failed calls change nothing. -/
def specStep (cfgs : List PropConfig) (st : List (Nat × Int × Int)) :
    SubCall → List (Nat × Int × Int)
  | .sub c opts =>
    if opts.all (fun o => validateSubscribeOption cfgs o == .ok) then
      (subscribeKeys cfgs opts).map (fun k => (c, k)) ++ st
    else st
  | .unsub c props =>
    if props.all (fun p => st.any (fun t => t.1 == c && t.2.1 == p)) then
      st.filter (fun t => !(t.1 == c && props.contains t.2.1))
    else st

/-- The spec-level subscription set reached by a call sequence. -/
def runSpec (cfgs : List PropConfig) (calls : List SubCall) : List (Nat × Int × Int) :=
  calls.foldl (specStep cfgs) []

theorem find?_filter_ne_key (key key2 : Int × Int) (h : key2 ≠ key) :
    ∀ l : List ((Int × Int) × List Nat),
      (l.filter (fun kv => !(kv.1 == key))).find? (fun kv => kv.1 == key2) =
        l.find? (fun kv => kv.1 == key2) := by
  intro l
  induction l with
  | nil => rfl
  | cons kv rest ih =>
    by_cases hk : kv.1 = key
    · have hc1 : (kv.1 == key) = true := by simpa using hk
      have hc2 : (kv.1 == key2) = false := by
        simp only [beq_eq_false_iff_ne, ne_eq]
        rw [hk]
        exact fun hh => h hh.symm
      simp [List.filter_cons, hc1, List.find?_cons, hc2, ih]
    · have hc1 : (kv.1 == key) = false := by simpa using hk
      by_cases hk2 : kv.1 = key2
      · have hc2 : (kv.1 == key2) = true := by simpa using hk2
        simp [List.filter_cons, hc1, List.find?_cons, hc2]
      · have hc2 : (kv.1 == key2) = false := by simpa using hk2
        simp [List.filter_cons, hc1, List.find?_cons, hc2, ih]

theorem lookupClients_add_self (m : SubManager) (key : Int × Int) (c : Nat) :
    lookupClients (addClientToKey m key c) key =
      if (lookupClients m key).contains c then lookupClients m key
      else c :: lookupClients m key := by
  simp [addClientToKey, lookupClients, List.find?_cons]

theorem lookupClients_add_other (m : SubManager) (key key2 : Int × Int) (c : Nat)
    (h : key2 ≠ key) :
    lookupClients (addClientToKey m key c) key2 = lookupClients m key2 := by
  have hc : (key == key2) = false := by
    simp only [beq_eq_false_iff_ne, ne_eq]
    exact fun hh => h hh.symm
  simp only [addClientToKey, lookupClients, List.find?_cons, hc]
  rw [find?_filter_ne_key key key2 h]

theorem mem_lookupClients_add (m : SubManager) (key key2 : Int × Int) (c c' : Nat) :
    c' ∈ lookupClients (addClientToKey m key c) key2 ↔
      (c' = c ∧ key2 = key) ∨ c' ∈ lookupClients m key2 := by
  by_cases hk : key2 = key
  · subst hk
    rw [lookupClients_add_self]
    by_cases hc : (lookupClients m key2).contains c
    · have hcm : c ∈ lookupClients m key2 := by simpa using hc
      rw [if_pos hc]
      constructor
      · exact Or.inr
      · rintro (⟨rfl, -⟩ | h)
        · exact hcm
        · exact h
    · rw [if_neg hc]
      simp [List.mem_cons]
  · rw [lookupClients_add_other m key key2 c hk]
    simp [hk]

theorem lookupClients_cons (kv : (Int × Int) × List Nat)
    (l : List ((Int × Int) × List Nat)) (key : Int × Int) :
    lookupClients ⟨kv :: l⟩ key =
      if (kv.1 == key) = true then kv.2 else lookupClients ⟨l⟩ key := by
  by_cases h : (kv.1 == key) = true
  · simp only [lookupClients, List.find?_cons, h, if_pos]
  · have hf : (kv.1 == key) = false := by
      rcases hb : (kv.1 == key) with _ | _
      · rfl
      · exact absurd hb h
    simp only [lookupClients, List.find?_cons, hf, Bool.false_eq_true, if_false]

theorem dropClientEntry_fst (c : Nat) (props : List Int)
    (kv : (Int × Int) × List Nat) : (dropClientEntry c props kv).1 = kv.1 := by
  unfold dropClientEntry
  by_cases hp : props.contains kv.1.1 = true
  · rw [if_pos hp]
  · rw [if_neg hp]

theorem lookupClients_remove (m : SubManager) (c : Nat) (props : List Int)
    (key : Int × Int) :
    lookupClients (removeClientForProps m c props) key =
      if props.contains key.1 then (lookupClients m key).filter (fun x => !(x == c))
      else lookupClients m key := by
  rcases m with ⟨l⟩
  induction l with
  | nil =>
    by_cases hp : props.contains key.1 = true
    · simp only [removeClientForProps, removeEntries, lookupClients, List.find?_nil,
        if_pos hp, List.filter_nil]
    · simp only [removeClientForProps, removeEntries, lookupClients, List.find?_nil,
        if_neg hp]
  | cons kv rest ih =>
    show lookupClients ⟨dropClientEntry c props kv :: removeEntries c props rest⟩ key = _
    rw [lookupClients_cons, dropClientEntry_fst, lookupClients_cons]
    by_cases hk : (kv.1 == key) = true
    · rw [if_pos hk, if_pos hk]
      have hkey : kv.1 = key := by simpa using hk
      unfold dropClientEntry
      by_cases hp : props.contains kv.1.1 = true
      · rw [if_pos hp, if_pos (hkey ▸ hp)]
      · rw [if_neg hp, if_neg (hkey ▸ hp)]
    · rw [if_neg hk, if_neg hk]
      exact ih

theorem keys_removeEntries (c : Nat) (props : List Int) :
    ∀ l : List ((Int × Int) × List Nat),
      (removeEntries c props l).map (·.1) = l.map (·.1) := by
  intro l
  induction l with
  | nil => rfl
  | cons kv rest ih =>
    simp only [removeEntries, List.map_cons, dropClientEntry_fst, ih]

theorem nodup_keys_add (m : SubManager) (key : Int × Int) (c : Nat)
    (h : (m.clientsByPropArea.map (·.1)).Nodup) :
    ((addClientToKey m key c).clientsByPropArea.map (·.1)).Nodup := by
  show (key :: (m.clientsByPropArea.filter (fun kv => !(kv.1 == key))).map (·.1)).Nodup
  refine List.nodup_cons.mpr ⟨?_, ?_⟩
  · intro hmem
    rcases List.mem_map.mp hmem with ⟨kv, hkv, hfst⟩
    have hcond := (List.mem_filter.mp hkv).2
    rw [hfst] at hcond
    simp at hcond
  · have hsub : ((m.clientsByPropArea.filter (fun kv => !(kv.1 == key))).map
        (fun x : (Int × Int) × List Nat => x.1)).Sublist
        (m.clientsByPropArea.map (fun x => x.1)) :=
      List.Sublist.map _ (List.filter_sublist _)
    exact List.Nodup.sublist hsub h

theorem bool_eq_of_iff {a b : Bool} (h : a = true ↔ b = true) : a = b := by
  cases a <;> cases b <;> simp_all

theorem listAll_congr {α : Type} (l : List α) (f g : α → Bool)
    (h : ∀ x ∈ l, f x = g x) : l.all f = l.all g := by
  induction l with
  | nil => rfl
  | cons x xs ih =>
    simp only [List.all_cons, h x (List.mem_cons_self x xs)]
    rw [ih (fun y hy => h y (List.mem_cons_of_mem x hy))]

theorem lookupClients_entry (m : SubManager) (kv : (Int × Int) × List Nat)
    (hnodup : (m.clientsByPropArea.map (·.1)).Nodup)
    (hkv : kv ∈ m.clientsByPropArea) : lookupClients m kv.1 = kv.2 := by
  rcases m with ⟨l⟩
  induction l with
  | nil => simp at hkv
  | cons kv0 rest ih =>
    rw [lookupClients_cons]
    rcases List.mem_cons.mp hkv with rfl | htail
    · simp
    · have hnd : (kv0.1 :: rest.map (fun x => x.1)).Nodup := hnodup
      by_cases hk : (kv0.1 == kv.1) = true
      · exfalso
        have hkeq : kv0.1 = kv.1 := by simpa using hk
        exact (List.nodup_cons.mp hnd).1
          (hkeq ▸ List.mem_map_of_mem (fun x => x.1) htail)
      · rw [if_neg hk]
        exact ih (List.nodup_cons.mp hnd).2 htail

theorem clientSubscribedToProp_iff (m : SubManager) (c : Nat) (p : Int)
    (hnodup : (m.clientsByPropArea.map (·.1)).Nodup) :
    clientSubscribedToProp m c p = true ↔ ∃ a, c ∈ lookupClients m (p, a) := by
  constructor
  · intro h
    rcases List.any_eq_true.mp h with ⟨kv, hkv, hcond⟩
    have hcond' : kv.1.1 = p ∧ c ∈ kv.2 := by simpa using hcond
    have hp : kv.1.1 = p := hcond'.1
    have hc : c ∈ kv.2 := hcond'.2
    refine ⟨kv.1.2, ?_⟩
    have hkey : ((p, kv.1.2) : Int × Int) = kv.1 := by
      rw [← hp]
    rw [hkey, lookupClients_entry m kv hnodup hkv]
    exact hc
  · rintro ⟨a, hc⟩
    unfold clientSubscribedToProp
    rw [List.any_eq_true]
    unfold lookupClients at hc
    rcases hf : m.clientsByPropArea.find? (fun kv => kv.1 == (p, a)) with _ | kv
    · rw [hf] at hc
      simp at hc
    · rw [hf] at hc
      simp only at hc
      have hkey : kv.1 = (p, a) := by simpa using List.find?_some hf
      refine ⟨kv, List.mem_of_find?_eq_some hf, ?_⟩
      simp [hkey]
      simpa using hc

/-- The simulation invariant between the `(propId, areaId)` subscriber map and
the spec-level set of `(client, propId, areaId)` triples. -/
def SubInv (m : SubManager) (st : List (Nat × Int × Int)) : Prop :=
  (m.clientsByPropArea.map (·.1)).Nodup ∧
  ∀ (c : Nat) (p a : Int), c ∈ lookupClients m (p, a) ↔ (c, p, a) ∈ st

theorem SubInv_empty : SubInv ⟨[]⟩ [] :=
  ⟨List.nodup_nil, by intro c p a; simp [lookupClients]⟩

theorem SubInv_congr (m : SubManager) (st st2 : List (Nat × Int × Int))
    (h : SubInv m st) (hiff : ∀ t, t ∈ st ↔ t ∈ st2) : SubInv m st2 :=
  ⟨h.1, fun c p a => (h.2 c p a).trans (hiff (c, p, a))⟩

theorem SubInv_add (m : SubManager) (st : List (Nat × Int × Int))
    (key : Int × Int) (c : Nat) (h : SubInv m st) :
    SubInv (addClientToKey m key c) ((c, key) :: st) := by
  refine ⟨nodup_keys_add m key c h.1, fun c' p a => ?_⟩
  rw [mem_lookupClients_add, h.2 c' p a]
  simp only [List.mem_cons, Prod.ext_iff]

theorem SubInv_addAll (c : Nat) :
    ∀ (keys : List (Int × Int)) (m : SubManager) (st : List (Nat × Int × Int)),
      SubInv m st →
      SubInv (keys.foldl (fun acc k => addClientToKey acc k c) m)
        (keys.map (fun k => (c, k)) ++ st) := by
  intro keys
  induction keys with
  | nil => intro m st h; simpa using h
  | cons k ks ih =>
    intro m st h
    have h2 := ih (addClientToKey m k c) ((c, k) :: st) (SubInv_add m st k c h)
    refine SubInv_congr _ _ _ h2 ?_
    intro t
    simp only [List.mem_append, List.mem_cons, List.map_cons]
    tauto

theorem SubInv_remove (m : SubManager) (st : List (Nat × Int × Int))
    (c : Nat) (props : List Int) (h : SubInv m st) :
    SubInv (removeClientForProps m c props)
      (st.filter (fun t => !(t.1 == c && props.contains t.2.1))) := by
  refine ⟨?_, fun c' p a => ?_⟩
  · show ((removeEntries c props m.clientsByPropArea).map (·.1)).Nodup
    rw [keys_removeEntries]
    exact h.1
  · rw [lookupClients_remove]
    by_cases hp : ((p, a) : Int × Int).1 ∈ props
    · have hpc : props.contains ((p, a) : Int × Int).1 = true := by simpa using hp
      rw [if_pos hpc]
      constructor
      · intro hc'
        rcases List.mem_filter.mp hc' with ⟨hmem, hne⟩
        have hcne : ¬ c' = c := by simpa using hne
        refine List.mem_filter.mpr ⟨(h.2 c' p a).mp hmem, ?_⟩
        simp [hcne]
      · intro hc'
        rcases List.mem_filter.mp hc' with ⟨hmem, hcond⟩
        have : ¬(c' = c ∧ p ∈ props) := by
          intro hcon
          simp [hcon.1, hcon.2] at hcond
        refine List.mem_filter.mpr ⟨(h.2 c' p a).mpr hmem, ?_⟩
        have hcne : ¬ c' = c := fun hcc => this ⟨hcc, hp⟩
        simp [hcne]
    · rw [if_neg (by simpa using hp)]
      rw [h.2 c' p a]
      constructor
      · intro hmem
        refine List.mem_filter.mpr ⟨hmem, ?_⟩
        have : ¬(p ∈ props) := hp
        simp [this]
      · intro hmem
        exact (List.mem_filter.mp hmem).1

theorem unsub_cond_eq (m : SubManager) (st : List (Nat × Int × Int))
    (c : Nat) (p : Int) (h : SubInv m st) :
    clientSubscribedToProp m c p = st.any (fun t => t.1 == c && t.2.1 == p) := by
  apply bool_eq_of_iff
  rw [clientSubscribedToProp_iff m c p h.1, List.any_eq_true]
  constructor
  · rintro ⟨a, hc⟩
    refine ⟨(c, p, a), (h.2 c p a).mp hc, ?_⟩
    simp
  · rintro ⟨t, ht, hcond⟩
    have hcond' : t.1 = c ∧ t.2.1 = p := by simpa using hcond
    have hc : t.1 = c := hcond'.1
    have hp : t.2.1 = p := hcond'.2
    refine ⟨t.2.2, (h.2 c p t.2.2).mpr ?_⟩
    have : ((c, p, t.2.2) : Nat × Int × Int) = t := by
      rw [← hc, ← hp]
    rw [this]
    exact ht

theorem SubInv_step (cfgs : List PropConfig) (m : SubManager)
    (st : List (Nat × Int × Int)) (call : SubCall) (h : SubInv m st) :
    SubInv (applyCall cfgs m call) (specStep cfgs st call) := by
  cases call with
  | sub c opts =>
    simp only [applyCall, implSubscribe, specStep]
    by_cases hv : opts.all (fun o => validateSubscribeOption cfgs o == .ok) = true
    · rw [if_pos hv, if_pos hv]
      exact SubInv_addAll c (subscribeKeys cfgs opts) m st h
    · rw [if_neg hv, if_neg hv]
      exact h
  | unsub c props =>
    simp only [applyCall, implUnsubscribe, specStep]
    have hcond : props.all (fun p => clientSubscribedToProp m c p) =
        props.all (fun p => st.any (fun t => t.1 == c && t.2.1 == p)) :=
      listAll_congr props _ _ (fun p _ => unsub_cond_eq m st c p h)
    by_cases hc : props.all (fun p => clientSubscribedToProp m c p) = true
    · rw [if_pos hc, if_pos (hcond ▸ hc)]
      exact SubInv_remove m st c props h
    · rw [if_neg hc, if_neg (hcond ▸ hc)]
      exact h

theorem SubInv_run (cfgs : List PropConfig) :
    ∀ (calls : List SubCall) (m : SubManager) (st : List (Nat × Int × Int)),
      SubInv m st →
      SubInv (calls.foldl (applyCall cfgs) m) (calls.foldl (specStep cfgs) st) := by
  intro calls
  induction calls with
  | nil => intro m st h; exact h
  | cons call rest ih =>
    intro m st h
    exact ih _ _ (SubInv_step cfgs m st call h)

theorem SubInv_runImpl (cfgs : List PropConfig) (calls : List SubCall) :
    SubInv (runImpl cfgs calls) (runSpec cfgs calls) :=
  SubInv_run cfgs calls ⟨[]⟩ [] SubInv_empty

/-- C2: after any sequence of subscribe/unsubscribe calls, a property-change
event with value `v` is delivered to client `c` iff `c` currently holds a
subscription matching `(v.prop, v.areaId)`; events with no matching
subscriber are dropped (the fan-out list is empty); and a valid subscription
made with an empty `areaIds` list matches every configured area of the
property. -/
theorem deliver_iff_current_subscription (cfgs : List PropConfig)
    (calls : List SubCall) (c : Nat) (v : VehiclePropValue) :
    (c ∈ deliver (runImpl cfgs calls) v ↔ (c, v.prop, v.areaId) ∈ runSpec cfgs calls) ∧
    ((∀ c' : Nat, (c', v.prop, v.areaId) ∉ runSpec cfgs calls) →
      deliver (runImpl cfgs calls) v = []) ∧
    (∀ rate : Rat,
      validateSubscribeOption cfgs ⟨v.prop, [], rate⟩ = .ok →
      ∀ cfg, lookupConfig cfgs v.prop = some cfg →
      v.areaId ∈ configuredAreaIds cfg →
      c ∈ deliver (runImpl cfgs (calls ++ [SubCall.sub c [⟨v.prop, [], rate⟩]])) v) := by
  have hinv := SubInv_runImpl cfgs calls
  refine ⟨hinv.2 c v.prop v.areaId, ?_, ?_⟩
  · intro hnone
    apply List.eq_nil_iff_forall_not_mem.mpr
    intro c' hc'
    exact hnone c' ((hinv.2 c' v.prop v.areaId).mp hc')
  · intro rate hvalid cfg hcfg hmem
    have hinv2 := SubInv_runImpl cfgs (calls ++ [SubCall.sub c [⟨v.prop, [], rate⟩]])
    apply (hinv2.2 c v.prop v.areaId).mpr
    show (c, v.prop, v.areaId) ∈
      (calls ++ [SubCall.sub c [⟨v.prop, [], rate⟩]]).foldl (specStep cfgs) []
    rw [List.foldl_append]
    show (c, v.prop, v.areaId) ∈
      specStep cfgs (runSpec cfgs calls) (SubCall.sub c [⟨v.prop, [], rate⟩])
    simp only [specStep]
    have hall : ([(⟨v.prop, [], rate⟩ : SubscribeOptions)]).all
        (fun o => validateSubscribeOption cfgs o == .ok) = true := by
      simp [hvalid]
    rw [if_pos hall]
    apply List.mem_append_left
    apply List.mem_map_of_mem (fun k => (c, k))
    show (v.prop, v.areaId) ∈ subscribeKeys cfgs [⟨v.prop, [], rate⟩]
    simp only [subscribeKeys, List.flatMap_cons, List.flatMap_nil, List.append_nil, hcfg]
    show (v.prop, v.areaId) ∈ (expandAreas cfg []).map (fun a => (v.prop, a))
    unfold expandAreas
    rw [if_pos List.isEmpty_nil]
    exact List.mem_map_of_mem (fun a => (v.prop, a)) hmem

/-- Witness for C2: subscribing client 0 to property 1 with an empty
`areaIds` list delivers an event for configured area 20 to client 0. -/
theorem deliver_iff_current_subscription_witness :
    0 ∈ deliver (runImpl [⟨1, .onChange, [⟨10, 0, 100⟩, ⟨20, 0, 100⟩], 0, 0⟩]
      (([] : List SubCall) ++ [SubCall.sub 0 [⟨1, [], 0⟩]])) ⟨1, 20, []⟩ :=
  (deliver_iff_current_subscription [⟨1, .onChange, [⟨10, 0, 100⟩, ⟨20, 0, 100⟩], 0, 0⟩]
    [] 0 ⟨1, 20, []⟩).2.2 0 (by decide) ⟨1, .onChange, [⟨10, 0, 100⟩, ⟨20, 0, 100⟩], 0, 0⟩
    (by decide) (by decide)

theorem validateSubscribeOption_ok (cfgs : List PropConfig) (o : SubscribeOptions)
    (h : validateSubscribeOption cfgs o = .ok) :
    ∃ cfg, lookupConfig cfgs o.propId = some cfg ∧
      cfg.changeMode ≠ .staticMode ∧
      (∀ a ∈ o.areaIds, a ∈ configuredAreaIds cfg) ∧
      (cfg.changeMode = .continuous →
        0 < o.sampleRate ∧ cfg.minSampleRate ≤ o.sampleRate ∧
          o.sampleRate ≤ cfg.maxSampleRate) := by
  unfold validateSubscribeOption at h
  split at h
  · cases h
  · rename_i cfg hlook
    refine ⟨cfg, hlook, ?_⟩
    split at h
    · cases h
    · rename_i hcm
      split at h
      · rename_i harea
        refine ⟨?_, ?_, ?_⟩
        · rw [hcm]
          intro hc
          cases hc
        · intro a ha
          simpa using List.all_eq_true.mp harea a ha
        · rw [hcm]
          intro hc
          cases hc
      · cases h
    · rename_i hcm
      split at h
      · cases h
      · rename_i hrate
        split at h
        · rename_i harea
          push_neg at hrate
          refine ⟨?_, ?_, fun _ => hrate⟩
          · rw [hcm]
            intro hc
            cases hc
          · intro a ha
            simpa using List.all_eq_true.mp harea a ha
        · cases h

/-- C7: a subscribe call containing any invalid option (unknown property,
static change mode, an area id outside the configured areas, or, for a
continuous property, a sample rate that is non-positive or outside
`[minSampleRate, maxSampleRate]`) fails synchronously with `INVALID_ARG` and
installs no subscription. -/
theorem subscribe_invalid_rejected (cfgs : List PropConfig) (m : SubManager)
    (client : Nat) (opts : List SubscribeOptions) (o : SubscribeOptions) (ho : o ∈ opts)
    (hbad : lookupConfig cfgs o.propId = none ∨
      ∃ cfg, lookupConfig cfgs o.propId = some cfg ∧
        (cfg.changeMode = .staticMode ∨
         (∃ a ∈ o.areaIds, a ∉ configuredAreaIds cfg) ∨
         (cfg.changeMode = .continuous ∧
           (o.sampleRate ≤ 0 ∨ o.sampleRate < cfg.minSampleRate ∨
            cfg.maxSampleRate < o.sampleRate)))) :
    implSubscribe cfgs m client opts = (.invalidArg, m) := by
  have hbadv : validateSubscribeOption cfgs o ≠ .ok := by
    intro hok
    rcases validateSubscribeOption_ok cfgs o hok with ⟨cfg, hlook, hns, hareas, hrate⟩
    rcases hbad with hnone | ⟨cfg2, hlook2, hbad2⟩
    · rw [hlook] at hnone
      cases hnone
    · rw [hlook] at hlook2
      injection hlook2 with hcfg
      subst hcfg
      rcases hbad2 with hstat | ⟨a, ha, hnot⟩ | ⟨hcont, hrbad⟩
      · exact hns hstat
      · exact hnot (hareas a ha)
      · rcases hrate hcont with ⟨hr1, hr2, hr3⟩
        rcases hrbad with hb | hb | hb
        · exact absurd hb (not_le.mpr hr1)
        · exact absurd hb (not_lt.mpr hr2)
        · exact absurd hb (not_lt.mpr hr3)
  have hall : opts.all (fun o' => validateSubscribeOption cfgs o' == .ok) = false := by
    rw [List.all_eq_false]
    exact ⟨o, ho, by simp [hbadv]⟩
  unfold implSubscribe
  simp [hall]

/-- Witness for C7: subscribing to a static property is rejected with
`INVALID_ARG` and the manager state is unchanged. -/
theorem subscribe_invalid_rejected_witness :
    implSubscribe [⟨1, .staticMode, [], 0, 0⟩] ⟨[]⟩ 0 [⟨1, [], 0⟩] =
      (.invalidArg, (⟨[]⟩ : SubManager)) :=
  subscribe_invalid_rejected [⟨1, .staticMode, [], 0, 0⟩] ⟨[]⟩ 0 [⟨1, [], 0⟩]
    ⟨1, [], 0⟩ (List.mem_cons_self _ _)
    (Or.inr ⟨⟨1, .staticMode, [], 0, 0⟩, by decide, Or.inl rfl⟩)

/-! ## Large parcelable codec

Modelled from the spec: the missing LargeParcelableCodec (spec sections 4.6
and 6).  A payload is serialized to a flat word sequence (each integer in a
zigzag encoding, each value length-prefixed); a payload whose encoded size is
at or above the threshold travels through the shared-memory region with the
inline list cleared, below the threshold it stays inline with no handle.
-/

/-- Zigzag encoding of an integer as a natural number. -/
def encodeInt (i : Int) : Nat :=
  if 0 ≤ i then 2 * i.toNat else 2 * (-i).toNat - 1

/-- Inverse of `encodeInt`. -/
def decodeInt (n : Nat) : Int :=
  if n % 2 = 0 then Int.ofNat (n / 2) else -(Int.ofNat ((n + 1) / 2))

theorem decodeInt_encodeInt (i : Int) : decodeInt (encodeInt i) = i := by
  unfold encodeInt decodeInt
  by_cases h : 0 ≤ i
  · rw [if_pos h]
    have h2 : (2 * i.toNat) % 2 = 0 := by omega
    rw [if_pos h2]
    have h3 : 2 * i.toNat / 2 = i.toNat := by omega
    rw [h3]
    exact Int.toNat_of_nonneg h
  · rw [if_neg h]
    have hk : 1 ≤ (-i).toNat := by omega
    have h2 : ¬((2 * (-i).toNat - 1) % 2 = 0) := by omega
    rw [if_neg h2]
    have h3 : (2 * (-i).toNat - 1 + 1) / 2 = (-i).toNat := by omega
    rw [h3]
    have h4 : (Int.ofNat (-i).toNat) = -i := Int.toNat_of_nonneg (by omega)
    rw [h4]
    omega

/-- Serialize a payload: every value becomes its encoded property id, encoded
area id, value count, then the encoded values. -/
def serializeValues : List VehiclePropValue → List Nat
  | [] => []
  | v :: vs => encodeInt v.prop :: encodeInt v.areaId :: v.int32Values.length ::
      (v.int32Values.map encodeInt ++ serializeValues vs)

/-- Sequential decoder; the fuel argument bounds the number of decoded
values. -/
def decodeValsAux : Nat → List Nat → Option (List VehiclePropValue)
  | _, [] => some []
  | 0, _ :: _ => none
  | fuel + 1, p :: a :: n :: rest =>
    if n ≤ rest.length then
      match decodeValsAux fuel (rest.drop n) with
      | some vs => some (⟨decodeInt p, decodeInt a, (rest.take n).map decodeInt⟩ :: vs)
      | none => none
    else none
  | _ + 1, [_] => none
  | _ + 1, [_, _] => none

/-- Deserialize a byte sequence back into a payload. -/
def deserializeValues (bytes : List Nat) : Option (List VehiclePropValue) :=
  decodeValsAux bytes.length bytes

theorem length_serializeValues_ge (vs : List VehiclePropValue) :
    vs.length ≤ (serializeValues vs).length := by
  induction vs with
  | nil => simp [serializeValues]
  | cons v rest ih =>
    simp only [serializeValues, List.length_cons, List.length_append]
    omega

theorem decodeValsAux_serialize (vs : List VehiclePropValue) :
    ∀ fuel : Nat, vs.length ≤ fuel →
      decodeValsAux fuel (serializeValues vs) = some vs := by
  induction vs with
  | nil => intro fuel _; cases fuel <;> rfl
  | cons v rest ih =>
    intro fuel hfuel
    rcases fuel with _ | f
    · simp at hfuel
    · show decodeValsAux (f + 1) (encodeInt v.prop :: encodeInt v.areaId ::
        v.int32Values.length :: (v.int32Values.map encodeInt ++ serializeValues rest)) =
        some (v :: rest)
      have hlen : v.int32Values.length ≤
          (v.int32Values.map encodeInt ++ serializeValues rest).length := by
        simp [List.length_append]
      simp only [decodeValsAux, if_pos hlen]
      have htake : (v.int32Values.map encodeInt ++ serializeValues rest).take
          v.int32Values.length = v.int32Values.map encodeInt := by
        rw [← List.length_map v.int32Values encodeInt]
        exact List.take_left _ _
      have hdrop : (v.int32Values.map encodeInt ++ serializeValues rest).drop
          v.int32Values.length = serializeValues rest := by
        rw [← List.length_map v.int32Values encodeInt]
        exact List.drop_left _ _
      rw [htake, hdrop, ih f (by simpa using hfuel)]
      have hvals : (v.int32Values.map encodeInt).map decodeInt = v.int32Values := by
        rw [List.map_map]
        have : ∀ x ∈ v.int32Values, (decodeInt ∘ encodeInt) x = id x :=
          fun x _ => decodeInt_encodeInt x
        rw [List.map_congr_left this, List.map_id]
      simp only [hvals, decodeInt_encodeInt]

theorem deserializeValues_serializeValues (vs : List VehiclePropValue) :
    deserializeValues (serializeValues vs) = some vs :=
  decodeValsAux_serialize vs (serializeValues vs).length (length_serializeValues_ge vs)

/-- The transport parcelable: an inline payload or a shared-memory handle
(mutually exclusive). -/
structure LargeParcelable where
  payloads : List VehiclePropValue
  sharedMemoryFd : Option (List Nat)
deriving DecidableEq, Repr

/-- Encode: spill the payload to shared memory and clear the inline list when
the encoded size reaches the threshold, else keep it inline with no handle
(spec sections 4.6 and 6). -/
def parcelableToStableLargeParcelable (threshold : Nat)
    (payload : List VehiclePropValue) : LargeParcelable :=
  if threshold ≤ (serializeValues payload).length then
    ⟨[], some (serializeValues payload)⟩
  else ⟨payload, none⟩

/-- Decode: a handle with an empty inline list is mapped and deserialized; a
handle next to a non-empty inline list is invalid; no handle means the inline
list is the payload (spec section 4.6). -/
def stableLargeParcelableToParcelable (p : LargeParcelable) :
    Option (List VehiclePropValue) :=
  match p.sharedMemoryFd with
  | some bytes => if p.payloads.isEmpty then deserializeValues bytes else none
  | none => some p.payloads

/-- C8: encoding a payload whose serialized size is at or above the threshold
clears the inline list and sets the shared-memory handle; a payload below the
threshold stays inline with no handle; in both cases decoding recovers the
original payload exactly. -/
theorem codec_round_trip (threshold : Nat) (payload : List VehiclePropValue) :
    (threshold ≤ (serializeValues payload).length →
      (parcelableToStableLargeParcelable threshold payload).payloads = [] ∧
      (parcelableToStableLargeParcelable threshold payload).sharedMemoryFd ≠ none) ∧
    ((serializeValues payload).length < threshold →
      (parcelableToStableLargeParcelable threshold payload).payloads = payload ∧
      (parcelableToStableLargeParcelable threshold payload).sharedMemoryFd = none) ∧
    stableLargeParcelableToParcelable
      (parcelableToStableLargeParcelable threshold payload) = some payload := by
  by_cases h : threshold ≤ (serializeValues payload).length
  · unfold parcelableToStableLargeParcelable
    rw [if_pos h]
    refine ⟨fun _ => ⟨rfl, by intro hc; cases hc⟩, fun hlt => absurd h (not_le.mpr hlt), ?_⟩
    show stableLargeParcelableToParcelable ⟨[], some (serializeValues payload)⟩ = some payload
    unfold stableLargeParcelableToParcelable
    simp [deserializeValues_serializeValues]
  · unfold parcelableToStableLargeParcelable
    rw [if_neg h]
    exact ⟨fun hc => absurd hc h, fun _ => ⟨rfl, rfl⟩, rfl⟩

/-- Witness for C8 at threshold 0 (every payload spills to shared memory): the
inline list is cleared and decoding recovers the payload. -/
theorem codec_round_trip_witness :
    (parcelableToStableLargeParcelable 0 [⟨1, 0, [5, -3]⟩]).payloads = [] ∧
    stableLargeParcelableToParcelable
      (parcelableToStableLargeParcelable 0 [⟨1, 0, [5, -3]⟩]) = some [⟨1, 0, [5, -3]⟩] :=
  ⟨((codec_round_trip 0 [⟨1, 0, [5, -3]⟩]).1 (by decide)).1,
   (codec_round_trip 0 [⟨1, 0, [5, -3]⟩]).2.2⟩

/-- Witness for the amended C9 at the mixed-batch scenario: at most two
invocations, and the first one carries exactly the validation failures. -/
theorem call_results_batched_witness :
    (dispatchCall true [⟨1, .onChange, [], 0, 0⟩]
      (fun _ => (.ok, some [⟨1, .ok, none⟩])) ⟨[]⟩ 0
      [(0, ⟨99, 0, [7]⟩), (1, ⟨1, 0, [7]⟩)]).invocations.length ≤ 2 ∧
    (dispatchCall true [⟨1, .onChange, [], 0, 0⟩]
      (fun _ => (.ok, some [⟨1, .ok, none⟩])) ⟨[]⟩ 0
      [(0, ⟨99, 0, [7]⟩), (1, ⟨1, 0, [7]⟩)]).invocations.head? =
      some (0, failResults true [⟨1, .onChange, [], 0, 0⟩]
        [(0, ⟨99, 0, [7]⟩), (1, ⟨1, 0, [7]⟩)]) := by
  have h := call_results_batched true [⟨1, .onChange, [], 0, 0⟩]
    (fun _ => (.ok, some [⟨1, .ok, none⟩])) ⟨[]⟩ 0
    [(0, ⟨99, 0, [7]⟩), (1, ⟨1, 0, [7]⟩)]
  exact ⟨h.1, h.2.2 (by decide) (by decide)⟩
